import Mathlib

/-!
# tcb/unicode.hpp: a shallow embedding of the UTF-8 / UTF-16 / UTF-32 codecs

Code units and code points are natural numbers.  A value of a C++ unsigned type of
`w` bits is a natural number below `2^w`; every conversion to such a type that the
source performs (`unsigned char lead = *p++`, `static_cast<char_type>(..)`,
`uint16_t w1 = *current++`) is written as an explicit `% 2^w`.

An input range `[p, e)` is the list of the units that remain to be read; a function
that takes the cursor by reference (`Iterator& p`) returns the remaining list next
to its result.
-/

namespace tcb.unicode

namespace detail

/-- The sentinel `illegal = 0xFFFFFFFFu`. -/
def illegal : Nat := 0xFFFFFFFF

/-- The sentinel `incomplete = 0xFFFFFFFEu`. -/
def incomplete : Nat := 0xFFFFFFFE

/-- The function `is_valid_codepoint(code_point v)`. -/
def is_valid_codepoint (v : Nat) : Bool :=
  if v > 0x10FFFF then false
  else if 0xD800 ≤ v && v ≤ 0xDFFF then false
  else true

/-- The struct `encoded_chars<CharType>`: the first `size_` elements of `chars_`. -/
abbrev encoded_chars := List Nat

/-- The member `encoded_chars::size()`. -/
def encoded_chars.size (e : encoded_chars) : Nat := e.length

/-- An output iterator type: `I` is the iterator value, which a call copies when it
takes the iterator by value, and `M` is the storage that every copy writes through.
`put out m x` is the statement `*out++ = x`. -/
structure OutIter (I M : Type) where
  put : I → M → Nat → I × M

/-- The iterator `std::back_inserter(output)`: it has no position of its own, and
`*out++ = x` appends `x` to the string. -/
def back_inserter : OutIter Unit (List Nat) where
  put := fun _ m x => ((), m ++ [x])

/-- A positional output iterator (a pointer into an array): `*out++ = x` stores `x`
at the position and steps the position. -/
def positional : OutIter Nat (Nat → Nat) where
  put := fun pos m x => (pos + 1, fun i => if i = pos then x else m i)

/-! ## `utf_traits<CharType, 1>`: UTF-8 -/

namespace utf8

/-- The function `utf_traits<CharType, 1>::trail_length`. -/
def trail_length (ci : Nat) : Int :=
  let c := ci % 256
  if c < 128 then 0
  else if c < 194 then -1
  else if c < 224 then 1
  else if c < 240 then 2
  else if c ≤ 244 then 3
  else -1

/-- The constant `utf_traits<CharType, 1>::max_width`. -/
def max_width : Nat := 4

/-- The function `utf_traits<CharType, 1>::width`. -/
def width (value : Nat) : Int :=
  if value ≤ 0x7F then 1
  else if value ≤ 0x7FF then 2
  else if value ≤ 0xFFFF then 3
  else 4

/-- The function `utf_traits<CharType, 1>::is_trail`. -/
def is_trail (ci : Nat) : Bool :=
  let c := ci % 256
  (c &&& 0xC0) == 0x80

/-- The function `utf_traits<CharType, 1>::is_lead`. -/
def is_lead (ci : Nat) : Bool := !is_trail ci

/-- One arm of the `switch (trail_size)` in `decode`:
`if (p == e) return incomplete; tmp = *p++; if (!is_trail(tmp)) return illegal;
c = (c << 6) | (tmp & 0x3F);`.  `Except.error` is an early `return` of the function
(value returned, cursor), `Except.ok` carries on with the new `c` and cursor. -/
def read_trail (c : Nat) (p : List Nat) : Except (Nat × List Nat) (Nat × List Nat) :=
  match p with
  | [] => .error (incomplete, [])
  | ti :: p =>
    let tmp := ti % 256
    if !is_trail tmp then .error (illegal, p)
    else .ok (((c <<< 6) % 2 ^ 32) ||| (tmp &&& 0x3F), p)

/-- The label `case 1:` of the switch. -/
def case1 (c : Nat) (p : List Nat) : Except (Nat × List Nat) (Nat × List Nat) :=
  read_trail c p

/-- The label `case 2:` of the switch, which falls through to `case 1:`. -/
def case2 (c : Nat) (p : List Nat) : Except (Nat × List Nat) (Nat × List Nat) :=
  match read_trail c p with
  | .error r => .error r
  | .ok s => case1 s.1 s.2

/-- The label `case 3:` of the switch, which falls through to `case 2:`. -/
def case3 (c : Nat) (p : List Nat) : Except (Nat × List Nat) (Nat × List Nat) :=
  match read_trail c p with
  | .error r => .error r
  | .ok s => case2 s.1 s.2

/-- The function `utf_traits<CharType, 1>::decode(Iterator& p, Sentinel e)`: the value
returned and the cursor afterwards. -/
def decode (p : List Nat) : Nat × List Nat :=
  match p with
  | [] => (incomplete, [])
  | ci :: p =>
    let lead := ci % 256
    let trail_size := trail_length lead
    if trail_size < 0 then (illegal, p)
    else if trail_size = 0 then (lead, p)
    else
      let c := lead &&& ((1 <<< (6 - trail_size).toNat) - 1)
      let r :=
        if trail_size = 3 then case3 c p
        else if trail_size = 2 then case2 c p
        else if trail_size = 1 then case1 c p
        else .ok (c, p)
      match r with
      | .error e => e
      | .ok s =>
        if !is_valid_codepoint s.1 then (illegal, s.2)
        else if width s.1 ≠ trail_size + 1 then (illegal, s.2)
        else (s.1, s.2)

/-- The function `utf_traits<CharType, 1>::decode_valid(Iterator& p)`.  Reading past
the end of the list reads the unit `0`. -/
def decode_valid (p : List Nat) : Nat × List Nat :=
  let lead := p.headD 0 % 256
  let p := p.tail
  if lead < 192 then (lead, p)
  else
    let trail_size : Nat := if lead < 224 then 1 else if lead < 240 then 2 else 3
    let c := lead &&& ((1 <<< (6 - trail_size)) - 1)
    let step := fun (s : Nat × List Nat) =>
      ((((s.1 <<< 6) % 2 ^ 32) ||| ((s.2.headD 0 % 256) &&& 0x3F)), s.2.tail)
    if trail_size = 3 then step (step (step (c, p)))
    else if trail_size = 2 then step (step (c, p))
    else step (c, p)

/-- The overload `utf_traits<CharType, 1>::encode(code_point value)` that returns an
`encoded_chars`. -/
def encode (value : Nat) : encoded_chars :=
  if value ≤ 0x7F then
    [value % 256]
  else if value ≤ 0x7FF then
    [((value >>> 6) ||| 0xC0) % 256,
     ((value &&& 0x3F) ||| 0x80) % 256]
  else if value ≤ 0xFFFF then
    [((value >>> 12) ||| 0xE0) % 256,
     (((value >>> 6) &&& 0x3F) ||| 0x80) % 256,
     ((value &&& 0x3F) ||| 0x80) % 256]
  else
    [((value >>> 18) ||| 0xF0) % 256,
     (((value >>> 12) &&& 0x3F) ||| 0x80) % 256,
     (((value >>> 6) &&& 0x3F) ||| 0x80) % 256,
     ((value &&& 0x3F) ||| 0x80) % 256]

/-- The overload `utf_traits<CharType, 1>::encode(code_point value, Iterator out)`:
the iterator it returns and the storage afterwards. -/
def encode_out {I M : Type} (O : OutIter I M) (value : Nat) (out : I) (m : M) : I × M :=
  if value ≤ 0x7F then
    O.put out m (value % 256)
  else if value ≤ 0x7FF then
    let s := O.put out m (((value >>> 6) ||| 0xC0) % 256)
    O.put s.1 s.2 (((value &&& 0x3F) ||| 0x80) % 256)
  else if value ≤ 0xFFFF then
    let s := O.put out m (((value >>> 12) ||| 0xE0) % 256)
    let s := O.put s.1 s.2 ((((value >>> 6) &&& 0x3F) ||| 0x80) % 256)
    O.put s.1 s.2 (((value &&& 0x3F) ||| 0x80) % 256)
  else
    let s := O.put out m (((value >>> 18) ||| 0xF0) % 256)
    let s := O.put s.1 s.2 ((((value >>> 12) &&& 0x3F) ||| 0x80) % 256)
    let s := O.put s.1 s.2 ((((value >>> 6) &&& 0x3F) ||| 0x80) % 256)
    O.put s.1 s.2 (((value &&& 0x3F) ||| 0x80) % 256)

end utf8

/-! ## `utf_traits<CharType, 2>`: UTF-16 -/

namespace utf16

/-- The function `utf_traits<CharType, 2>::is_first_surrogate(uint16_t x)`. -/
def is_first_surrogate (x : Nat) : Bool := 0xD800 ≤ x && x ≤ 0xDBFF

/-- The function `utf_traits<CharType, 2>::is_second_surrogate(uint16_t x)`. -/
def is_second_surrogate (x : Nat) : Bool := 0xDC00 ≤ x && x ≤ 0xDFFF

/-- The function `utf_traits<CharType, 2>::combine_surrogate(uint16_t w1, uint16_t w2)`. -/
def combine_surrogate (w1 w2 : Nat) : Nat :=
  (((((w1 &&& 0x3FF) <<< 10) % 2 ^ 32) ||| (w2 &&& 0x3FF)) + 0x10000) % 2 ^ 32

/-- The function `utf_traits<CharType, 2>::trail_length`. -/
def trail_length (c : Nat) : Int :=
  if is_first_surrogate (c % 65536) then 1
  else if is_second_surrogate (c % 65536) then -1
  else 0

/-- The function `utf_traits<CharType, 2>::is_trail`. -/
def is_trail (c : Nat) : Bool := is_second_surrogate (c % 65536)

/-- The function `utf_traits<CharType, 2>::is_lead`. -/
def is_lead (c : Nat) : Bool := !is_second_surrogate (c % 65536)

/-- The function `utf_traits<CharType, 2>::decode(It& current, S last)`: the value
returned and the cursor afterwards. -/
def decode (current : List Nat) : Nat × List Nat :=
  match current with
  | [] => (incomplete, [])
  | u1 :: current =>
    let w1 := u1 % 65536
    if w1 < 0xD800 ∨ 0xDFFF < w1 then (w1, current)
    else if w1 > 0xDBFF then (illegal, current)
    else
      match current with
      | [] => (incomplete, [])
      | u2 :: current =>
        let w2 := u2 % 65536
        if w2 < 0xDC00 ∨ 0xDFFF < w2 then (illegal, current)
        else (combine_surrogate w1 w2, current)

/-- The function `utf_traits<CharType, 2>::decode_valid(It& current)`.  Reading past
the end of the list reads the unit `0`. -/
def decode_valid (current : List Nat) : Nat × List Nat :=
  let w1 := current.headD 0 % 65536
  let current := current.tail
  if w1 < 0xD800 ∨ 0xDFFF < w1 then (w1, current)
  else
    let w2 := current.headD 0 % 65536
    (combine_surrogate w1 w2, current.tail)

/-- The constant `utf_traits<CharType, 2>::max_width`. -/
def max_width : Nat := 2

/-- The function `utf_traits<CharType, 2>::width`. -/
def width (u : Nat) : Int := if u ≥ 0x10000 then 2 else 1

/-- The overload `utf_traits<CharType, 2>::encode(code_point u)` that returns an
`encoded_chars`.  The statement `u -= 0x10000` is unsigned 32-bit subtraction. -/
def encode (u : Nat) : encoded_chars :=
  if u ≤ 0xFFFF then
    [u % 65536]
  else
    let u := (u + 2 ^ 32 - 0x10000) % 2 ^ 32
    [(0xD800 ||| (u >>> 10)) % 65536,
     (0xDC00 ||| (u &&& 0x3FF)) % 65536]

/-- The overload `utf_traits<CharType, 2>::encode(code_point u, It out)`: the iterator
it returns and the storage afterwards. -/
def encode_out {I M : Type} (O : OutIter I M) (u : Nat) (out : I) (m : M) : I × M :=
  if u ≤ 0xFFFF then
    O.put out m (u % 65536)
  else
    let u := (u + 2 ^ 32 - 0x10000) % 2 ^ 32
    let s := O.put out m ((0xD800 ||| (u >>> 10)) % 65536)
    O.put s.1 s.2 ((0xDC00 ||| (u &&& 0x3FF)) % 65536)

end utf16

/-! ## `utf_traits<CharType, 4>`: UTF-32 -/

namespace utf32

/-- The function `utf_traits<CharType, 4>::trail_length`. -/
def trail_length (c : Nat) : Int :=
  if is_valid_codepoint (c % 2 ^ 32) then 0 else -1

/-- The function `utf_traits<CharType, 4>::is_trail`. -/
def is_trail (_c : Nat) : Bool := false

/-- The function `utf_traits<CharType, 4>::is_lead`. -/
def is_lead (_c : Nat) : Bool := true

/-- The function `utf_traits<CharType, 4>::decode_valid(It& current)`.  Reading past
the end of the list reads the unit `0`. -/
def decode_valid (current : List Nat) : Nat × List Nat :=
  (current.headD 0 % 2 ^ 32, current.tail)

/-- The function `utf_traits<CharType, 4>::decode(It& current, S last)`: the value
returned and the cursor afterwards. -/
def decode (current : List Nat) : Nat × List Nat :=
  match current with
  | [] => (incomplete, [])
  | u :: current =>
    let c := u % 2 ^ 32
    if !is_valid_codepoint c then (illegal, current)
    else (c, current)

/-- The constant `utf_traits<CharType, 4>::max_width`. -/
def max_width : Nat := 1

/-- The function `utf_traits<CharType, 4>::width`. -/
def width (_u : Nat) : Int := 1

/-- The overload `utf_traits<CharType, 4>::encode(code_point u)` that returns an
`encoded_chars`. -/
def encode (u : Nat) : encoded_chars := [u % 2 ^ 32]

/-- The overload `utf_traits<CharType, 4>::encode(code_point u, It out)`: the iterator
it returns and the storage afterwards. -/
def encode_out {I M : Type} (O : OutIter I M) (u : Nat) (out : I) (m : M) : I × M :=
  O.put out m (u % 2 ^ 32)

end utf32

/-- The second template argument of `utf_traits<CharType, size>`, `sizeof(CharType)`:
it selects the codec at compile time. -/
inductive CharSize where
  | one
  | two
  | four
  deriving DecidableEq

/-- The number of bits of a code unit of the given size. -/
def CharSize.bits : CharSize → Nat
  | .one => 8
  | .two => 16
  | .four => 32

namespace utf_traits

/-- The member `utf_traits<CharType>::decode`, selected by `sizeof(CharType)`. -/
def decode : CharSize → List Nat → Nat × List Nat
  | .one => utf8.decode
  | .two => utf16.decode
  | .four => utf32.decode

/-- The member `utf_traits<CharType>::encode(code_point)`, selected by
`sizeof(CharType)`. -/
def encode : CharSize → Nat → encoded_chars
  | .one => utf8.encode
  | .two => utf16.encode
  | .four => utf32.encode

/-- The member `utf_traits<CharType>::encode(code_point, Iterator)`, selected by
`sizeof(CharType)`. -/
def encode_out {I M : Type} (O : OutIter I M) : CharSize → Nat → I → M → I × M
  | .one => utf8.encode_out O
  | .two => utf16.encode_out O
  | .four => utf32.encode_out O

end utf_traits

end detail

open detail

/-- The loop of `convert`, with a bound on the number of iterations:
`while (first != last) { c = utf_traits<InCharT>::decode(first, last);
utf_traits<OutCharT>::encode(c, out); }  return out;`.
The iterator that `encode` returns is dropped, as in the source: the loop keeps its
own `out`, and only the storage written through it changes. -/
def convert_loop {I M : Type} (inC outC : CharSize) (O : OutIter I M) :
    Nat → List Nat → I → M → I × M
  | 0, _, out, m => (out, m)
  | fuel + 1, first, out, m =>
    match first with
    | [] => (out, m)
    | u :: rest =>
      let r := utf_traits.decode inC (u :: rest)
      let w := utf_traits.encode_out O outC r.1 out m
      convert_loop inC outC O fuel r.2 out w.2

/-- The function `convert<OutCharT>(first, last, out)`: the iterator returned and the
storage afterwards.  Every turn of the loop reads at least one unit, so the length of
the source bounds the number of turns (`convert_unfold`). -/
def convert {I M : Type} (inC outC : CharSize) (O : OutIter I M)
    (first : List Nat) (out : I) (m : M) : I × M :=
  convert_loop inC outC O first.length first out m

/-- The function `to_utf_string<OutCharT>(first, last)`: an empty string, filled by
`convert` through `std::back_inserter`. -/
def to_utf_string (inC outC : CharSize) (first : List Nat) : List Nat :=
  (convert inC outC back_inserter first () []).2

/-- The function `to_u8string`. -/
def to_u8string (inC : CharSize) (s : List Nat) : List Nat := to_utf_string inC .one s

/-- The function `to_u16string`. -/
def to_u16string (inC : CharSize) (s : List Nat) : List Nat := to_utf_string inC .two s

/-- The function `to_u32string`. -/
def to_u32string (inC : CharSize) (s : List Nat) : List Nat := to_utf_string inC .four s

/-- The values returned by calling `decode` again and again until the source is
exhausted, with a bound on the number of calls. -/
def decode_all_loop (inC : CharSize) : Nat → List Nat → List Nat
  | 0, _ => []
  | fuel + 1, s =>
    match s with
    | [] => []
    | u :: rest =>
      let r := utf_traits.decode inC (u :: rest)
      r.1 :: decode_all_loop inC fuel r.2

/-- The values returned by calling `decode` again and again until the source is
exhausted (`decode_all_unfold`). -/
def decode_all (inC : CharSize) (s : List Nat) : List Nat :=
  decode_all_loop inC s.length s

/-- The concatenation of the encodings of a list of code points. -/
def encode_all (outC : CharSize) : List Nat → List Nat
  | [] => []
  | c :: l => utf_traits.encode outC c ++ encode_all outC l

/-- A unit sequence of code units of the given size: every unit fits the unit type. -/
def well_typed (c : CharSize) (s : List Nat) : Prop := ∀ u ∈ s, u < 2 ^ c.bits

/-- A unit sequence is valid in a form when no call of `decode` over it returns a
sentinel. -/
def valid_in (c : CharSize) (s : List Nat) : Prop :=
  ∀ v ∈ decode_all c s, v ≠ illegal ∧ v ≠ incomplete

instance (c : CharSize) (s : List Nat) : Decidable (well_typed c s) := by
  unfold well_typed
  infer_instance

instance (c : CharSize) (s : List Nat) : Decidable (valid_in c s) := by
  unfold valid_in
  infer_instance

namespace detail

namespace utf_traits

/-- The member `utf_traits<CharType>::decode_valid`, selected by `sizeof(CharType)`. -/
def decode_valid : CharSize → List Nat → Nat × List Nat
  | .one => utf8.decode_valid
  | .two => utf16.decode_valid
  | .four => utf32.decode_valid

/-- The member `utf_traits<CharType>::width`, selected by `sizeof(CharType)`. -/
def width : CharSize → Nat → Int
  | .one => utf8.width
  | .two => utf16.width
  | .four => utf32.width

/-- The member `utf_traits<CharType>::max_width`, selected by `sizeof(CharType)`. -/
def max_width : CharSize → Nat
  | .one => utf8.max_width
  | .two => utf16.max_width
  | .four => utf32.max_width

end utf_traits

/-- The number of elements of `encoded_chars<CharType>::chars_`, the array
`std::array<CharType, 4 / sizeof(CharType)>`. -/
def encoded_chars.capacity : CharSize → Nat
  | .one => 4
  | .two => 2
  | .four => 1

/-- The struct `unicode_view<InputIt, Sentinel, InCharT, OutCharT>::iterator`.  The
member `first_` is the part of the source that is still to be read; `last_` is the end
of that list.  `idx_` is a `std::uint8_t`. -/
structure iterator where
  next_chars_ : encoded_chars
  first_ : List Nat
  idx_ : Nat
  deriving DecidableEq

namespace iterator

/-- The constructor `iterator(InputIt first, Sentinel last)`; the default member
initialisers give an empty `next_chars_` and `idx_ = 0`. -/
def ctor (inC outC : CharSize) (first : List Nat) : iterator :=
  match first with
  | [] => { next_chars_ := [], first_ := [], idx_ := 0 }
  | u :: rest =>
    let r := utf_traits.decode inC (u :: rest)
    { next_chars_ := utf_traits.encode outC r.1, first_ := r.2, idx_ := 0 }

/-- The operator `operator*`: `next_chars_[idx_]`.  An element of `chars_` past `size_`
is zero. -/
def deref (it : iterator) : Nat := it.next_chars_.getD it.idx_ 0

/-- The operator `operator++()`:
`if (++idx_ == next_chars_.size() && first_ != last_) { decode; encode; idx_ = 0; }`. -/
def incr (inC outC : CharSize) (it : iterator) : iterator :=
  let idx := (it.idx_ + 1) % 256
  if idx = it.next_chars_.size ∧ it.first_ ≠ [] then
    let r := utf_traits.decode inC it.first_
    { next_chars_ := utf_traits.encode outC r.1, first_ := r.2, idx_ := 0 }
  else
    { next_chars_ := it.next_chars_, first_ := it.first_, idx_ := idx }

/-- The member `done()`: `first_ == last_ && idx_ == next_chars_.size()`. -/
def done (it : iterator) : Bool :=
  decide (it.first_ = []) && decide (it.idx_ = it.next_chars_.size)

/-- The operator `operator==`, for two iterators over the same source (their
`last_` members are equal). -/
def eq (a b : iterator) : Bool :=
  (a.done && b.done) ||
    (decide (a.first_ = b.first_) && decide (a.idx_ = b.idx_) &&
      decide (a.next_chars_ = b.next_chars_))

end iterator

/-- The class `unicode_view<InputIt, Sentinel, InCharT, OutCharT>`: the sizes of the
two unit types and the source range `[first_, last_)`. -/
structure unicode_view where
  inC : CharSize
  outC : CharSize
  first_ : List Nat

namespace unicode_view

/-- The member `begin()`: `iterator{first_, last_}`. -/
def begin (v : unicode_view) : iterator := iterator.ctor v.inC v.outC v.first_

/-- The member `end()`: `iterator{last_, last_}`. -/
def end_ (v : unicode_view) : iterator := iterator.ctor v.inC v.outC []

/-- The loop of a container's iterator-pair constructor,
`for (; it != last; ++it) push_back(*it);`, with a bound on the number of turns. -/
def collect_loop (inC outC : CharSize) : Nat → iterator → iterator → List Nat
  | 0, _, _ => []
  | fuel + 1, it, last =>
    if it.eq last then []
    else it.deref :: collect_loop inC outC fuel (it.incr inC outC) last

/-- The conversion `operator Container()`: `Container(begin(), end())`.  One code point
takes at least one unit of the source and gives at most four units, which bounds the
number of turns (`to_container_eq`). -/
def to_container (v : unicode_view) : List Nat :=
  collect_loop v.inC v.outC (4 * v.first_.length) v.begin v.end_

end unicode_view

end detail

/-- The function `as_utf8(first, last)`. -/
def as_utf8 (inC : CharSize) (s : List Nat) : unicode_view :=
  { inC := inC, outC := .one, first_ := s }

/-- The function `as_utf16(first, last)`. -/
def as_utf16 (inC : CharSize) (s : List Nat) : unicode_view :=
  { inC := inC, outC := .two, first_ := s }

/-- The function `as_utf32(first, last)`. -/
def as_utf32 (inC : CharSize) (s : List Nat) : unicode_view :=
  { inC := inC, outC := .four, first_ := s }

/-- The iterator states that a loop over a view goes through: `begin()`, and the
result of `operator++` on a state that does not compare equal to `end()`. -/
inductive reachable (v : unicode_view) : iterator → Prop
  | start : reachable v v.begin
  | next (it : iterator) : reachable v it → it.eq v.end_ = false →
      reachable v (it.incr v.inC v.outC)

/-! ## Bit operations as arithmetic -/

theorem lor_eq_add (k a b : Nat) (h : b < 2 ^ k) : (2 ^ k * a) ||| b = 2 ^ k * a + b :=
  (Nat.mul_add_lt_is_or h a).symm

theorem and_3F (x : Nat) : x &&& 0x3F = x % 64 := Nat.and_pow_two_sub_one_eq_mod x 6

theorem and_3FF (x : Nat) : x &&& 0x3FF = x % 1024 := Nat.and_pow_two_sub_one_eq_mod x 10

theorem and_1F (x : Nat) : x &&& 31 = x % 32 := Nat.and_pow_two_sub_one_eq_mod x 5

theorem and_0F (x : Nat) : x &&& 15 = x % 16 := Nat.and_pow_two_sub_one_eq_mod x 4

theorem and_07 (x : Nat) : x &&& 7 = x % 8 := Nat.and_pow_two_sub_one_eq_mod x 3

theorem or_80 (x : Nat) (h : x < 128) : x ||| 0x80 = x + 128 := by
  have := lor_eq_add 7 1 x h
  rw [Nat.or_comm]; simpa [Nat.add_comm] using this

theorem or_C0 (x : Nat) (h : x < 64) : x ||| 0xC0 = x + 192 := by
  have := lor_eq_add 6 3 x h
  rw [Nat.or_comm]; simpa [Nat.add_comm] using this

theorem or_E0 (x : Nat) (h : x < 32) : x ||| 0xE0 = x + 224 := by
  have := lor_eq_add 5 7 x h
  rw [Nat.or_comm]; simpa [Nat.add_comm] using this

theorem or_F0 (x : Nat) (h : x < 16) : x ||| 0xF0 = x + 240 := by
  have := lor_eq_add 4 15 x h
  rw [Nat.or_comm]; simpa [Nat.add_comm] using this

theorem or_D800 (x : Nat) (h : x < 1024) : 0xD800 ||| x = 0xD800 + x := by
  simpa using lor_eq_add 10 54 x h

theorem or_DC00 (x : Nat) (h : x < 1024) : 0xDC00 ||| x = 0xDC00 + x := by
  simpa using lor_eq_add 10 55 x h

theorem shl6_or (c b : Nat) (h : b < 64) : (c <<< 6) ||| b = c * 64 + b := by
  have := lor_eq_add 6 c b h
  rw [Nat.shiftLeft_eq]; simpa [Nat.mul_comm] using this

theorem shl10_or (c b : Nat) (h : b < 1024) : (c <<< 10) ||| b = c * 1024 + b := by
  have := lor_eq_add 10 c b h
  rw [Nat.shiftLeft_eq]; simpa [Nat.mul_comm] using this

set_option maxRecDepth 100000 in
theorem is_trail_iff (b : Nat) (h : b < 256) :
    utf8.is_trail b = true ↔ 128 ≤ b ∧ b < 192 := by
  unfold utf8.is_trail
  revert b
  decide

/-! ## UTF-8: the codec in arithmetic form -/

theorem utf8_trail_length_0 (b : Nat) (h : b < 128) : utf8.trail_length b = 0 := by
  unfold utf8.trail_length
  simp only
  split_ifs <;> omega

theorem utf8_trail_length_1 (b : Nat) (h1 : 194 ≤ b) (h2 : b < 224) :
    utf8.trail_length b = 1 := by
  unfold utf8.trail_length
  simp only
  split_ifs <;> omega

theorem utf8_trail_length_2 (b : Nat) (h1 : 224 ≤ b) (h2 : b < 240) :
    utf8.trail_length b = 2 := by
  unfold utf8.trail_length
  simp only
  split_ifs <;> omega

theorem utf8_trail_length_3 (b : Nat) (h1 : 240 ≤ b) (h2 : b ≤ 244) :
    utf8.trail_length b = 3 := by
  unfold utf8.trail_length
  simp only
  split_ifs <;> omega

theorem utf8_trail_length_neg (b : Nat) (h : b < 256)
    (h1 : (128 ≤ b ∧ b < 194) ∨ 244 < b) : utf8.trail_length b = -1 := by
  unfold utf8.trail_length
  simp only
  split_ifs <;> omega

theorem utf8_read_trail_ok (c b : Nat) (t : List Nat) (hc : c < 2 ^ 26)
    (h1 : 128 ≤ b) (h2 : b < 192) :
    utf8.read_trail c (b :: t) = .ok (c * 64 + (b - 128), t) := by
  have hb : b % 256 = b := Nat.mod_eq_of_lt (by omega)
  have ht : utf8.is_trail b = true := (is_trail_iff b (by omega)).2 ⟨h1, h2⟩
  have h64 : b % 64 < 64 := Nat.mod_lt _ (by decide)
  have hs : (c <<< 6) % 2 ^ 32 = c <<< 6 := by
    rw [Nat.shiftLeft_eq]; apply Nat.mod_eq_of_lt; omega
  simp only [utf8.read_trail, hb, ht, and_3F, hs, shl6_or c _ h64]
  have : b % 64 = b - 128 := by omega
  simp [this]

theorem utf8_read_trail_bad (c b : Nat) (t : List Nat) (hb : b < 256)
    (h : b < 128 ∨ 192 ≤ b) :
    utf8.read_trail c (b :: t) = .error (illegal, t) := by
  have hb2 : b % 256 = b := Nat.mod_eq_of_lt hb
  have ht : utf8.is_trail b = false := by
    rw [Bool.eq_false_iff, Ne, is_trail_iff b hb]; omega
  simp [utf8.read_trail, hb2, ht]

theorem utf8_decode_1 (b : Nat) (t : List Nat) (h : b < 128) :
    utf8.decode (b :: t) = (b, t) := by
  have hb : b % 256 = b := Nat.mod_eq_of_lt (by omega)
  simp [utf8.decode, hb, utf8_trail_length_0 b h]

theorem utf8_decode_2 (b0 b1 : Nat) (t : List Nat) (h1 : 194 ≤ b0) (h2 : b0 < 224)
    (h3 : 128 ≤ b1) (h4 : b1 < 192) :
    utf8.decode (b0 :: b1 :: t) = ((b0 - 192) * 64 + (b1 - 128), t) := by
  have hb : b0 % 256 = b0 := Nat.mod_eq_of_lt (by omega)
  have hm : b0 % 32 = b0 - 192 := by omega
  have hv : is_valid_codepoint ((b0 - 192) * 64 + (b1 - 128)) = true := by
    unfold is_valid_codepoint
    split_ifs <;> first | rfl | (simp at *; omega)
  have hw : utf8.width ((b0 - 192) * 64 + (b1 - 128)) = 2 := by
    unfold utf8.width
    split_ifs <;> omega
  simp [utf8.decode, hb, utf8_trail_length_1 b0 h1 h2, utf8.case1, and_1F, hm,
    utf8_read_trail_ok (b0 - 192) b1 t (by omega) h3 h4, hv, hw]

theorem utf8_decode_3 (b0 b1 b2 : Nat) (t : List Nat) (h1 : 224 ≤ b0) (h2 : b0 < 240)
    (h3 : 128 ≤ b1) (h4 : b1 < 192) (h5 : 128 ≤ b2) (h6 : b2 < 192) :
    utf8.decode (b0 :: b1 :: b2 :: t) =
      (if 0x800 ≤ ((b0 - 224) * 64 + (b1 - 128)) * 64 + (b2 - 128) ∧
          ¬ (0xD800 ≤ ((b0 - 224) * 64 + (b1 - 128)) * 64 + (b2 - 128) ∧
             ((b0 - 224) * 64 + (b1 - 128)) * 64 + (b2 - 128) ≤ 0xDFFF)
        then ((b0 - 224) * 64 + (b1 - 128)) * 64 + (b2 - 128) else illegal, t) := by
  have hb : b0 % 256 = b0 := Nat.mod_eq_of_lt (by omega)
  have hm : b0 % 16 = b0 - 224 := by omega
  generalize hv : ((b0 - 224) * 64 + (b1 - 128)) * 64 + (b2 - 128) = v
  have hlt : v < 65536 := by omega
  simp only [utf8.decode, hb, utf8_trail_length_2 b0 h1 h2, utf8.case2, utf8.case1]
  simp [and_0F, hm, utf8_read_trail_ok (b0 - 224) b1 (b2 :: t) (by omega) h3 h4,
    utf8_read_trail_ok ((b0 - 224) * 64 + (b1 - 128)) b2 t (by omega) h5 h6, hv]
  unfold is_valid_codepoint utf8.width
  split_ifs <;> simp at * <;> omega

theorem utf8_decode_4 (b0 b1 b2 b3 : Nat) (t : List Nat) (h1 : 240 ≤ b0) (h2 : b0 ≤ 244)
    (h3 : 128 ≤ b1) (h4 : b1 < 192) (h5 : 128 ≤ b2) (h6 : b2 < 192)
    (h7 : 128 ≤ b3) (h8 : b3 < 192) :
    utf8.decode (b0 :: b1 :: b2 :: b3 :: t) =
      (if 0x10000 ≤ (((b0 - 240) * 64 + (b1 - 128)) * 64 + (b2 - 128)) * 64 + (b3 - 128) ∧
          (((b0 - 240) * 64 + (b1 - 128)) * 64 + (b2 - 128)) * 64 + (b3 - 128) ≤ 0x10FFFF
        then (((b0 - 240) * 64 + (b1 - 128)) * 64 + (b2 - 128)) * 64 + (b3 - 128)
        else illegal, t) := by
  have hb : b0 % 256 = b0 := Nat.mod_eq_of_lt (by omega)
  have hm : b0 % 8 = b0 - 240 := by omega
  generalize hv : (((b0 - 240) * 64 + (b1 - 128)) * 64 + (b2 - 128)) * 64 + (b3 - 128) = v
  simp only [utf8.decode, hb, utf8_trail_length_3 b0 h1 h2, utf8.case3, utf8.case2, utf8.case1]
  simp [and_07, hm, utf8_read_trail_ok (b0 - 240) b1 (b2 :: b3 :: t) (by omega) h3 h4,
    utf8_read_trail_ok ((b0 - 240) * 64 + (b1 - 128)) b2 (b3 :: t) (by omega) h5 h6,
    utf8_read_trail_ok (((b0 - 240) * 64 + (b1 - 128)) * 64 + (b2 - 128)) b3 t (by omega) h7 h8,
    hv]
  unfold is_valid_codepoint utf8.width
  split_ifs <;> simp at * <;> omega

theorem utf8_encode_1 (c : Nat) (h : c ≤ 0x7F) : utf8.encode c = [c] := by
  have hc : c % 256 = c := Nat.mod_eq_of_lt (by omega)
  simp [utf8.encode, h, hc]

theorem utf8_encode_2 (c : Nat) (h1 : 0x7F < c) (h2 : c ≤ 0x7FF) :
    utf8.encode c = [c / 64 + 192, c % 64 + 128] := by
  have e1 : ¬ c ≤ 0x7F := by omega
  have a : (c >>> 6 ||| 0xC0) % 256 = c / 64 + 192 := by
    rw [Nat.shiftRight_eq_div_pow, or_C0 _ (by omega)]; omega
  have b : (c &&& 0x3F ||| 0x80) % 256 = c % 64 + 128 := by
    rw [and_3F, or_80 _ (by omega)]; omega
  simp only [utf8.encode, e1, h2, if_true, if_false, a, b]

theorem utf8_encode_3 (c : Nat) (h1 : 0x7FF < c) (h2 : c ≤ 0xFFFF) :
    utf8.encode c = [c / 4096 + 224, c / 64 % 64 + 128, c % 64 + 128] := by
  have e1 : ¬ c ≤ 0x7F := by omega
  have e2 : ¬ c ≤ 0x7FF := by omega
  have a : (c >>> 12 ||| 0xE0) % 256 = c / 4096 + 224 := by
    rw [Nat.shiftRight_eq_div_pow, or_E0 _ (by omega)]; omega
  have b : (c >>> 6 &&& 0x3F ||| 0x80) % 256 = c / 64 % 64 + 128 := by
    rw [Nat.shiftRight_eq_div_pow, and_3F, or_80 _ (by omega)]; omega
  have d : (c &&& 0x3F ||| 0x80) % 256 = c % 64 + 128 := by
    rw [and_3F, or_80 _ (by omega)]; omega
  simp only [utf8.encode, e1, e2, h2, if_true, if_false, a, b, d]

theorem utf8_encode_4 (c : Nat) (h1 : 0xFFFF < c) (h2 : c < 2 ^ 22) :
    utf8.encode c =
      [c / 262144 + 240, c / 4096 % 64 + 128, c / 64 % 64 + 128, c % 64 + 128] := by
  have e1 : ¬ c ≤ 0x7F := by omega
  have e2 : ¬ c ≤ 0x7FF := by omega
  have e3 : ¬ c ≤ 0xFFFF := by omega
  have a : (c >>> 18 ||| 0xF0) % 256 = c / 262144 + 240 := by
    rw [Nat.shiftRight_eq_div_pow, or_F0 _ (by omega)]; omega
  have b : (c >>> 12 &&& 0x3F ||| 0x80) % 256 = c / 4096 % 64 + 128 := by
    rw [Nat.shiftRight_eq_div_pow, and_3F, or_80 _ (by omega)]; omega
  have b2 : (c >>> 6 &&& 0x3F ||| 0x80) % 256 = c / 64 % 64 + 128 := by
    rw [Nat.shiftRight_eq_div_pow, and_3F, or_80 _ (by omega)]; omega
  have d : (c &&& 0x3F ||| 0x80) % 256 = c % 64 + 128 := by
    rw [and_3F, or_80 _ (by omega)]; omega
  simp only [utf8.encode, e1, e2, e3, if_false, a, b, b2, d]

theorem valid_iff (v : Nat) :
    is_valid_codepoint v = true ↔ v ≤ 0x10FFFF ∧ ¬ (0xD800 ≤ v ∧ v ≤ 0xDFFF) := by
  unfold is_valid_codepoint
  split_ifs <;> simp at * <;> omega

theorem utf8_decode_encode (c : Nat) (t : List Nat) (h : is_valid_codepoint c = true) :
    utf8.decode (utf8.encode c ++ t) = (c, t) := by
  rw [valid_iff] at h
  by_cases h1 : c ≤ 0x7F
  · rw [utf8_encode_1 c h1]
    exact utf8_decode_1 c t (by omega)
  by_cases h2 : c ≤ 0x7FF
  · rw [utf8_encode_2 c (by omega) h2]
    simp only [List.cons_append, List.nil_append]
    rw [utf8_decode_2 _ _ _ (by omega) (by omega) (by omega) (by omega)]
    have : (c / 64 + 192 - 192) * 64 + (c % 64 + 128 - 128) = c := by omega
    rw [this]
  by_cases h3 : c ≤ 0xFFFF
  · rw [utf8_encode_3 c (by omega) h3]
    simp only [List.cons_append, List.nil_append]
    rw [utf8_decode_3 _ _ _ _ (by omega) (by omega) (by omega) (by omega) (by omega) (by omega)]
    have : ((c / 4096 + 224 - 224) * 64 + (c / 64 % 64 + 128 - 128)) * 64 +
        (c % 64 + 128 - 128) = c := by omega
    rw [this, if_pos (by omega)]
  · rw [utf8_encode_4 c (by omega) (by omega)]
    simp only [List.cons_append, List.nil_append]
    rw [utf8_decode_4 _ _ _ _ _ (by omega) (by omega) (by omega) (by omega) (by omega)
      (by omega) (by omega) (by omega)]
    have : (((c / 262144 + 240 - 240) * 64 + (c / 4096 % 64 + 128 - 128)) * 64 +
        (c / 64 % 64 + 128 - 128)) * 64 + (c % 64 + 128 - 128) = c := by omega
    rw [this, if_pos (by omega)]

/-! ## UTF-16: the codec in arithmetic form -/

theorem utf16_combine (w1 w2 : Nat) :
    utf16.combine_surrogate w1 w2 = (w1 % 1024) * 1024 + w2 % 1024 + 0x10000 := by
  unfold utf16.combine_surrogate
  have h1 : w1 % 1024 < 1024 := Nat.mod_lt _ (by decide)
  have h2 : w2 % 1024 < 1024 := Nat.mod_lt _ (by decide)
  have hs : ((w1 % 1024) <<< 10) % 2 ^ 32 = (w1 % 1024) <<< 10 := by
    rw [Nat.shiftLeft_eq]; apply Nat.mod_eq_of_lt; omega
  rw [and_3FF, and_3FF, hs, shl10_or _ _ h2]
  omega

theorem utf16_encode_1 (u : Nat) (h : u ≤ 0xFFFF) : utf16.encode u = [u] := by
  have hu : u % 65536 = u := Nat.mod_eq_of_lt (by omega)
  simp [utf16.encode, h, hu]

theorem utf16_encode_2 (u : Nat) (h1 : 0xFFFF < u) (h2 : u ≤ 0x10FFFF) :
    utf16.encode u = [0xD800 + (u - 0x10000) / 1024, 0xDC00 + (u - 0x10000) % 1024] := by
  have e1 : ¬ u ≤ 0xFFFF := by omega
  have hs : (u + 2 ^ 32 - 0x10000) % 2 ^ 32 = u - 0x10000 := by omega
  have a : (0xD800 ||| (u - 0x10000) >>> 10) % 65536 = 0xD800 + (u - 0x10000) / 1024 := by
    rw [Nat.shiftRight_eq_div_pow, or_D800 _ (by omega)]; omega
  have b : (0xDC00 ||| (u - 0x10000) &&& 0x3FF) % 65536 = 0xDC00 + (u - 0x10000) % 1024 := by
    rw [and_3FF, or_DC00 _ (by omega)]; omega
  simp only [utf16.encode, e1, if_false, hs, a, b]

theorem utf16_decode_1 (w1 : Nat) (t : List Nat) (h : w1 < 65536)
    (h1 : w1 < 0xD800 ∨ 0xDFFF < w1) : utf16.decode (w1 :: t) = (w1, t) := by
  have hw : w1 % 65536 = w1 := Nat.mod_eq_of_lt h
  simp [utf16.decode, hw, h1]

theorem utf16_decode_2 (w1 w2 : Nat) (t : List Nat) (h1 : 0xD800 ≤ w1) (h2 : w1 ≤ 0xDBFF)
    (h3 : 0xDC00 ≤ w2) (h4 : w2 ≤ 0xDFFF) :
    utf16.decode (w1 :: w2 :: t) = ((w1 - 0xD800) * 1024 + (w2 - 0xDC00) + 0x10000, t) := by
  have hw1 : w1 % 65536 = w1 := Nat.mod_eq_of_lt (by omega)
  have hw2 : w2 % 65536 = w2 := Nat.mod_eq_of_lt (by omega)
  have c1 : ¬ (w1 < 0xD800 ∨ 0xDFFF < w1) := by omega
  have c2 : ¬ (w1 > 0xDBFF) := by omega
  have c3 : ¬ (w2 < 0xDC00 ∨ 0xDFFF < w2) := by omega
  simp only [utf16.decode, hw1, hw2, c1, c2, c3, if_false, utf16_combine]
  have : w1 % 1024 * 1024 + w2 % 1024 + 0x10000 =
      (w1 - 0xD800) * 1024 + (w2 - 0xDC00) + 0x10000 := by omega
  rw [this]

theorem utf16_decode_encode (c : Nat) (t : List Nat) (h : is_valid_codepoint c = true) :
    utf16.decode (utf16.encode c ++ t) = (c, t) := by
  rw [valid_iff] at h
  by_cases h1 : c ≤ 0xFFFF
  · rw [utf16_encode_1 c h1]
    exact utf16_decode_1 c t (by omega) (by omega)
  · rw [utf16_encode_2 c (by omega) h.1]
    simp only [List.cons_append, List.nil_append]
    rw [utf16_decode_2 _ _ _ (by omega) (by omega) (by omega) (by omega)]
    have : (0xD800 + (c - 0x10000) / 1024 - 0xD800) * 1024 +
        (0xDC00 + (c - 0x10000) % 1024 - 0xDC00) + 0x10000 = c := by omega
    rw [this]

/-! ## UTF-32 -/

theorem utf32_decode_cons (u : Nat) (t : List Nat) (h : u < 2 ^ 32) :
    utf32.decode (u :: t) = (if is_valid_codepoint u then u else illegal, t) := by
  have hu : u % 2 ^ 32 = u := Nat.mod_eq_of_lt h
  simp only [utf32.decode, hu]
  cases is_valid_codepoint u <;> simp

theorem utf32_decode_encode (c : Nat) (t : List Nat) (h : is_valid_codepoint c = true) :
    utf32.decode (utf32.encode c ++ t) = (c, t) := by
  have h2 := (valid_iff c).1 h
  have hu : c % 4294967296 = c := Nat.mod_eq_of_lt (by omega)
  simp [utf32.encode, utf32.decode, hu, h]

/-- Every codec decodes the encoding of a valid code point back to it and stops
right after it. -/
theorem decode_encode (X : CharSize) (c : Nat) (t : List Nat)
    (h : is_valid_codepoint c = true) :
    utf_traits.decode X (utf_traits.encode X c ++ t) = (c, t) := by
  cases X
  · exact utf8_decode_encode c t h
  · exact utf16_decode_encode c t h
  · exact utf32_decode_encode c t h

/-! ## Every call of `decode` on a non-empty range moves the cursor -/

theorem utf8_read_trail_len (c : Nat) (p : List Nat) :
    match utf8.read_trail c p with
    | .ok s => s.2.length + 1 = p.length
    | .error e => e.2.length ≤ p.length ∧ p.length ≤ e.2.length + 1 := by
  cases p with
  | nil => simp [utf8.read_trail]
  | cons b t =>
    simp only [utf8.read_trail]
    split_ifs <;> simp

theorem utf8_case1_len (c : Nat) (p : List Nat) :
    match utf8.case1 c p with
    | .ok s => s.2.length + 1 = p.length
    | .error e => e.2.length ≤ p.length ∧ p.length ≤ e.2.length + 1 :=
  utf8_read_trail_len c p

theorem utf8_case2_len (c : Nat) (p : List Nat) :
    match utf8.case2 c p with
    | .ok s => s.2.length + 2 = p.length
    | .error e => e.2.length ≤ p.length ∧ p.length ≤ e.2.length + 2 := by
  have h1 := utf8_read_trail_len c p
  unfold utf8.case2
  cases h : utf8.read_trail c p with
  | error e => rw [h] at h1; simp only at h1 ⊢; omega
  | ok s =>
    rw [h] at h1
    simp only at h1 ⊢
    have h2 := utf8_case1_len s.1 s.2
    cases h' : utf8.case1 s.1 s.2 with
    | error e => rw [h'] at h2; simp only at h2 ⊢; omega
    | ok s' => rw [h'] at h2; simp only at h2 ⊢; omega

theorem utf8_case3_len (c : Nat) (p : List Nat) :
    match utf8.case3 c p with
    | .ok s => s.2.length + 3 = p.length
    | .error e => e.2.length ≤ p.length ∧ p.length ≤ e.2.length + 3 := by
  have h1 := utf8_read_trail_len c p
  unfold utf8.case3
  cases h : utf8.read_trail c p with
  | error e => rw [h] at h1; simp only at h1 ⊢; omega
  | ok s =>
    rw [h] at h1
    simp only at h1 ⊢
    have h2 := utf8_case2_len s.1 s.2
    cases h' : utf8.case2 s.1 s.2 with
    | error e => rw [h'] at h2; simp only at h2 ⊢; omega
    | ok s' => rw [h'] at h2; simp only at h2 ⊢; omega

theorem utf8_decode_len (u : Nat) (rest : List Nat) :
    (utf8.decode (u :: rest)).2.length ≤ rest.length ∧
      rest.length ≤ (utf8.decode (u :: rest)).2.length + 3 := by
  simp only [utf8.decode]
  split_ifs with h1 h2 h3 h4 h5
  · simp
  · simp
  · have := utf8_case3_len (u % 256 &&& (1 <<< (6 - utf8.trail_length (u % 256)).toNat - 1)) rest
    revert this
    cases utf8.case3 (u % 256 &&& (1 <<< (6 - utf8.trail_length (u % 256)).toNat - 1)) rest with
    | error e => simp only; omega
    | ok s => simp only; split_ifs <;> simp only <;> omega
  · have := utf8_case2_len (u % 256 &&& (1 <<< (6 - utf8.trail_length (u % 256)).toNat - 1)) rest
    revert this
    cases utf8.case2 (u % 256 &&& (1 <<< (6 - utf8.trail_length (u % 256)).toNat - 1)) rest with
    | error e => simp only; omega
    | ok s => simp only; split_ifs <;> simp only <;> omega
  · have := utf8_case1_len (u % 256 &&& (1 <<< (6 - utf8.trail_length (u % 256)).toNat - 1)) rest
    revert this
    cases utf8.case1 (u % 256 &&& (1 <<< (6 - utf8.trail_length (u % 256)).toNat - 1)) rest with
    | error e => simp only; omega
    | ok s => simp only; split_ifs <;> simp only <;> omega
  · simp only
    split_ifs <;> simp

theorem utf16_decode_len (u : Nat) (rest : List Nat) :
    (utf16.decode (u :: rest)).2.length ≤ rest.length ∧
      rest.length ≤ (utf16.decode (u :: rest)).2.length + 1 := by
  cases rest with
  | nil =>
    simp only [utf16.decode]
    split_ifs <;> simp
  | cons b t =>
    simp only [utf16.decode]
    split_ifs <;> simp

theorem utf32_decode_len (u : Nat) (rest : List Nat) :
    (utf32.decode (u :: rest)).2 = rest := by
  simp only [utf32.decode]
  split_ifs <;> rfl

theorem decode_len (X : CharSize) (u : Nat) (rest : List Nat) :
    (utf_traits.decode X (u :: rest)).2.length ≤ rest.length := by
  cases X
  · exact (utf8_decode_len u rest).1
  · exact (utf16_decode_len u rest).1
  · simp [utf_traits.decode, utf32_decode_len]

/-! ## The loop of `convert` -/

/-- The bound on the number of turns of the loop is never reached: any bound of at
least the length of the source gives the same result. -/
theorem convert_loop_fuel {I M : Type} (X Y : CharSize) (O : OutIter I M) :
    ∀ (n k : Nat) (s : List Nat) (out : I) (m : M), s.length ≤ n → s.length ≤ k →
      convert_loop X Y O n s out m = convert_loop X Y O k s out m := by
  intro n
  induction n with
  | zero =>
    intro k s out m hn _
    have hs : s = [] := List.length_eq_zero.1 (Nat.le_zero.1 hn)
    subst hs
    cases k <;> rfl
  | succ n ih =>
    intro k s out m hn hk
    cases s with
    | nil => cases k <;> rfl
    | cons u rest =>
      cases k with
      | zero => simp at hk
      | succ k =>
        simp only [convert_loop]
        have hl := decode_len X u rest
        simp only [List.length_cons] at hn hk
        exact ih k _ out _ (by omega) (by omega)

theorem convert_nil {I M : Type} (X Y : CharSize) (O : OutIter I M) (out : I) (m : M) :
    convert X Y O [] out m = (out, m) := rfl

/-- The loop equation of `convert`: one turn of the loop, then the loop again on what
is left of the source. -/
theorem convert_unfold {I M : Type} (X Y : CharSize) (O : OutIter I M)
    (u : Nat) (rest : List Nat) (out : I) (m : M) :
    convert X Y O (u :: rest) out m =
      convert X Y O (utf_traits.decode X (u :: rest)).2 out
        (utf_traits.encode_out O Y (utf_traits.decode X (u :: rest)).1 out m).2 := by
  simp only [convert, List.length_cons, convert_loop]
  exact convert_loop_fuel X Y O _ _ _ out _ (decode_len X u rest) (Nat.le_refl _)

theorem decode_all_loop_fuel (X : CharSize) :
    ∀ (n k : Nat) (s : List Nat), s.length ≤ n → s.length ≤ k →
      decode_all_loop X n s = decode_all_loop X k s := by
  intro n
  induction n with
  | zero =>
    intro k s hn _
    have hs : s = [] := List.length_eq_zero.1 (Nat.le_zero.1 hn)
    subst hs
    cases k <;> rfl
  | succ n ih =>
    intro k s hn hk
    cases s with
    | nil => cases k <;> rfl
    | cons u rest =>
      cases k with
      | zero => simp at hk
      | succ k =>
        simp only [decode_all_loop]
        have hl := decode_len X u rest
        simp only [List.length_cons] at hn hk
        rw [ih k _ (by omega) (by omega)]

theorem decode_all_nil (X : CharSize) : decode_all X [] = [] := rfl

/-- The equation of `decode_all`: one call of `decode`, then the rest. -/
theorem decode_all_unfold (X : CharSize) (u : Nat) (rest : List Nat) :
    decode_all X (u :: rest) =
      (utf_traits.decode X (u :: rest)).1 :: decode_all X (utf_traits.decode X (u :: rest)).2 := by
  simp only [decode_all, List.length_cons, decode_all_loop]
  rw [decode_all_loop_fuel X _ _ _ (decode_len X u rest) (Nat.le_refl _)]

/-- Through `std::back_inserter` the iterator overload of `encode` appends exactly the
units of the `encoded_chars` overload. -/
theorem encode_out_back_inserter (Y : CharSize) (c : Nat) (m : List Nat) :
    utf_traits.encode_out back_inserter Y c () m = ((), m ++ utf_traits.encode Y c) := by
  cases Y
  · simp only [utf_traits.encode_out, utf_traits.encode, utf8.encode_out, utf8.encode,
      back_inserter]
    split_ifs <;> simp
  · simp only [utf_traits.encode_out, utf_traits.encode, utf16.encode_out, utf16.encode,
      back_inserter]
    split_ifs <;> simp
  · simp [utf_traits.encode_out, utf_traits.encode, utf32.encode_out, utf32.encode,
      back_inserter]

theorem convert_back_inserter (X Y : CharSize) :
    ∀ (n : Nat) (s : List Nat) (m : List Nat), s.length ≤ n →
      (convert X Y back_inserter s () m).2 = m ++ (convert X Y back_inserter s () []).2 := by
  intro n
  induction n with
  | zero =>
    intro s m hn
    have hs : s = [] := List.length_eq_zero.1 (Nat.le_zero.1 hn)
    subst hs
    simp [convert_nil]
  | succ n ih =>
    intro s m hn
    cases s with
    | nil => simp [convert_nil]
    | cons u rest =>
      have hl := decode_len X u rest
      simp only [List.length_cons] at hn
      rw [convert_unfold, convert_unfold, encode_out_back_inserter, encode_out_back_inserter]
      simp only [List.nil_append]
      rw [ih _ (m ++ _) (by omega), ih _ (utf_traits.encode Y _) (by omega)]
      simp

theorem to_utf_string_nil (X Y : CharSize) : to_utf_string X Y [] = [] := rfl

/-- The equation of the eager conversion: the encoding of the first decoded value,
then the conversion of what is left of the source. -/
theorem to_utf_string_cons (X Y : CharSize) (u : Nat) (rest : List Nat) :
    to_utf_string X Y (u :: rest) =
      utf_traits.encode Y (utf_traits.decode X (u :: rest)).1 ++
        to_utf_string X Y (utf_traits.decode X (u :: rest)).2 := by
  unfold to_utf_string
  rw [convert_unfold, encode_out_back_inserter]
  simp only [List.nil_append]
  exact convert_back_inserter X Y _ _ _ (Nat.le_refl _)

theorem encode_ne_nil (X : CharSize) (c : Nat) : utf_traits.encode X c ≠ [] := by
  cases X
  · simp only [utf_traits.encode, utf8.encode]
    split_ifs <;> simp
  · simp only [utf_traits.encode, utf16.encode]
    split_ifs <;> simp
  · simp [utf_traits.encode, utf32.encode]

theorem to_utf_string_encode (X Y : CharSize) (c : Nat) (t : List Nat)
    (h : is_valid_codepoint c = true) :
    to_utf_string X Y (utf_traits.encode X c ++ t) =
      utf_traits.encode Y c ++ to_utf_string X Y t := by
  cases he : utf_traits.encode X c with
  | nil => exact absurd he (encode_ne_nil X c)
  | cons u r =>
    rw [List.cons_append, to_utf_string_cons, ← List.cons_append, ← he, decode_encode X c t h]

theorem to_utf_string_encode_all (X Y : CharSize) (l : List Nat)
    (h : ∀ c ∈ l, is_valid_codepoint c = true) :
    to_utf_string X Y (encode_all X l) = encode_all Y l := by
  induction l with
  | nil => rfl
  | cons c l ih =>
    simp only [encode_all]
    rw [to_utf_string_encode X Y c _ (h c (List.mem_cons_self c l)),
      ih (fun d hd => h d (List.mem_cons_of_mem c hd))]

/-! ## UTF-8: what `decode` does after each kind of lead byte -/

theorem utf8_decode_lead1 (b0 : Nat) (p : List Nat) (h1 : 194 ≤ b0) (h2 : b0 < 224) :
    utf8.decode (b0 :: p) =
      match utf8.case1 (b0 - 192) p with
      | .error e => e
      | .ok s =>
        if !is_valid_codepoint s.1 then (illegal, s.2)
        else if utf8.width s.1 ≠ 2 then (illegal, s.2)
        else (s.1, s.2) := by
  have hb : b0 % 256 = b0 := Nat.mod_eq_of_lt (by omega)
  have hm : b0 % 32 = b0 - 192 := by omega
  simp [utf8.decode, hb, utf8_trail_length_1 b0 h1 h2, and_1F, hm]

theorem utf8_decode_lead2 (b0 : Nat) (p : List Nat) (h1 : 224 ≤ b0) (h2 : b0 < 240) :
    utf8.decode (b0 :: p) =
      match utf8.case2 (b0 - 224) p with
      | .error e => e
      | .ok s =>
        if !is_valid_codepoint s.1 then (illegal, s.2)
        else if utf8.width s.1 ≠ 3 then (illegal, s.2)
        else (s.1, s.2) := by
  have hb : b0 % 256 = b0 := Nat.mod_eq_of_lt (by omega)
  have hm : b0 % 16 = b0 - 224 := by omega
  simp [utf8.decode, hb, utf8_trail_length_2 b0 h1 h2, and_0F, hm]

theorem utf8_decode_lead3 (b0 : Nat) (p : List Nat) (h1 : 240 ≤ b0) (h2 : b0 ≤ 244) :
    utf8.decode (b0 :: p) =
      match utf8.case3 (b0 - 240) p with
      | .error e => e
      | .ok s =>
        if !is_valid_codepoint s.1 then (illegal, s.2)
        else if utf8.width s.1 ≠ 4 then (illegal, s.2)
        else (s.1, s.2) := by
  have hb : b0 % 256 = b0 := Nat.mod_eq_of_lt (by omega)
  have hm : b0 % 8 = b0 - 240 := by omega
  simp [utf8.decode, hb, utf8_trail_length_3 b0 h1 h2, and_07, hm]

theorem utf8_decode_bad_lead (b0 : Nat) (p : List Nat) (h : b0 < 256)
    (h1 : (128 ≤ b0 ∧ b0 < 194) ∨ 244 < b0) : utf8.decode (b0 :: p) = (illegal, p) := by
  have hb : b0 % 256 = b0 := Nat.mod_eq_of_lt h
  simp [utf8.decode, hb, utf8_trail_length_neg b0 h h1]

theorem utf8_decode_mod (u : Nat) (p : List Nat) :
    utf8.decode (u :: p) = utf8.decode (u % 256 :: p) := by
  simp [utf8.decode]

theorem utf8_read_trail_inv (c : Nat) (p : List Nat) :
    match utf8.read_trail c p with
    | .ok s => ∃ b t, p = b :: t ∧ 128 ≤ b % 256 ∧ b % 256 < 192 ∧ s.2 = t
    | .error e => e.1 = illegal ∨ e.1 = incomplete := by
  cases p with
  | nil => simp [utf8.read_trail]
  | cons b t =>
    simp only [utf8.read_trail]
    split_ifs with h
    · simp
    · simp only [Bool.not_eq_true, Bool.not_eq_false_eq_eq_true, Bool.not_not] at h
      have hb : utf8.is_trail (b % 256) = true := by simpa using h
      have := (is_trail_iff (b % 256) (Nat.mod_lt _ (by decide))).1 hb
      exact ⟨b, t, rfl, this.1, this.2, rfl⟩

theorem utf8_case2_inv (c : Nat) (p : List Nat) :
    match utf8.case2 c p with
    | .ok s => ∃ b1 b2 t, p = b1 :: b2 :: t ∧ (128 ≤ b1 % 256 ∧ b1 % 256 < 192) ∧
        (128 ≤ b2 % 256 ∧ b2 % 256 < 192) ∧ s.2 = t
    | .error e => e.1 = illegal ∨ e.1 = incomplete := by
  have h1 := utf8_read_trail_inv c p
  unfold utf8.case2
  cases h : utf8.read_trail c p with
  | error e => rw [h] at h1; exact h1
  | ok s =>
    rw [h] at h1
    obtain ⟨b1, t1, hp, hb1, hb1', hs⟩ := h1
    have h2 := utf8_read_trail_inv s.1 s.2
    simp only [utf8.case1]
    cases h' : utf8.read_trail s.1 s.2 with
    | error e => rw [h'] at h2; exact h2
    | ok s' =>
      rw [h'] at h2
      obtain ⟨b2, t2, hp2, hb2, hb2', hs2⟩ := h2
      exact ⟨b1, b2, t2, by rw [hp, ← hs, hp2], ⟨hb1, hb1'⟩, ⟨hb2, hb2'⟩, hs2⟩

theorem utf8_case3_inv (c : Nat) (p : List Nat) :
    match utf8.case3 c p with
    | .ok s => ∃ b1 b2 b3 t, p = b1 :: b2 :: b3 :: t ∧ (128 ≤ b1 % 256 ∧ b1 % 256 < 192) ∧
        (128 ≤ b2 % 256 ∧ b2 % 256 < 192) ∧ (128 ≤ b3 % 256 ∧ b3 % 256 < 192) ∧ s.2 = t
    | .error e => e.1 = illegal ∨ e.1 = incomplete := by
  have h1 := utf8_read_trail_inv c p
  unfold utf8.case3
  cases h : utf8.read_trail c p with
  | error e => rw [h] at h1; exact h1
  | ok s =>
    rw [h] at h1
    obtain ⟨b1, t1, hp, hb1, hb1', hs⟩ := h1
    have h2 := utf8_case2_inv s.1 s.2
    dsimp only
    cases h' : utf8.case2 s.1 s.2 with
    | error e => rw [h'] at h2; exact h2
    | ok s' =>
      rw [h'] at h2
      obtain ⟨b2, b3, t2, hp2, hb2, hb3, hs2⟩ := h2
      exact ⟨b1, b2, b3, t2, by rw [hp, ← hs, hp2], ⟨hb1, hb1'⟩, hb2, hb3, hs2⟩

/-! ## UTF-8: a value that is not a sentinel comes from its own encoding -/

theorem utf8_shape1 (b0 : Nat) (p : List Nat) (h1 : 194 ≤ b0) (h2 : b0 < 224)
    (hi : (utf8.decode (b0 :: p)).1 ≠ illegal) (hc : (utf8.decode (b0 :: p)).1 ≠ incomplete) :
    ∃ b1 t, p = b1 :: t ∧ 128 ≤ b1 % 256 ∧ b1 % 256 < 192 := by
  rw [utf8_decode_lead1 b0 p h1 h2] at hi hc
  have h := utf8_read_trail_inv (b0 - 192) p
  unfold utf8.case1 at hi hc
  cases h' : utf8.read_trail (b0 - 192) p with
  | error e =>
    rw [h'] at h hi hc
    rcases h with h | h
    · exact absurd h hi
    · exact absurd h hc
  | ok s =>
    rw [h'] at h
    obtain ⟨b1, t, hp, hb, hb', _⟩ := h
    exact ⟨b1, t, hp, hb, hb'⟩

theorem utf8_shape2 (b0 : Nat) (p : List Nat) (h1 : 224 ≤ b0) (h2 : b0 < 240)
    (hi : (utf8.decode (b0 :: p)).1 ≠ illegal) (hc : (utf8.decode (b0 :: p)).1 ≠ incomplete) :
    ∃ b1 b2 t, p = b1 :: b2 :: t ∧ (128 ≤ b1 % 256 ∧ b1 % 256 < 192) ∧
      (128 ≤ b2 % 256 ∧ b2 % 256 < 192) := by
  rw [utf8_decode_lead2 b0 p h1 h2] at hi hc
  have h := utf8_case2_inv (b0 - 224) p
  cases h' : utf8.case2 (b0 - 224) p with
  | error e =>
    rw [h'] at h hi hc
    rcases h with h | h
    · exact absurd h hi
    · exact absurd h hc
  | ok s =>
    rw [h'] at h
    obtain ⟨b1, b2, t, hp, hb1, hb2, _⟩ := h
    exact ⟨b1, b2, t, hp, hb1, hb2⟩

theorem utf8_shape3 (b0 : Nat) (p : List Nat) (h1 : 240 ≤ b0) (h2 : b0 ≤ 244)
    (hi : (utf8.decode (b0 :: p)).1 ≠ illegal) (hc : (utf8.decode (b0 :: p)).1 ≠ incomplete) :
    ∃ b1 b2 b3 t, p = b1 :: b2 :: b3 :: t ∧ (128 ≤ b1 % 256 ∧ b1 % 256 < 192) ∧
      (128 ≤ b2 % 256 ∧ b2 % 256 < 192) ∧ (128 ≤ b3 % 256 ∧ b3 % 256 < 192) := by
  rw [utf8_decode_lead3 b0 p h1 h2] at hi hc
  have h := utf8_case3_inv (b0 - 240) p
  cases h' : utf8.case3 (b0 - 240) p with
  | error e =>
    rw [h'] at h hi hc
    rcases h with h | h
    · exact absurd h hi
    · exact absurd h hc
  | ok s =>
    rw [h'] at h
    obtain ⟨b1, b2, b3, t, hp, hb1, hb2, hb3, _⟩ := h
    exact ⟨b1, b2, b3, t, hp, hb1, hb2, hb3⟩

theorem utf8_decode_canonical (b0 : Nat) (p : List Nat) (hb : b0 < 256)
    (hp : ∀ u ∈ p, u < 256)
    (hi : (utf8.decode (b0 :: p)).1 ≠ illegal) (hc : (utf8.decode (b0 :: p)).1 ≠ incomplete) :
    b0 :: p = utf8.encode (utf8.decode (b0 :: p)).1 ++ (utf8.decode (b0 :: p)).2 ∧
      is_valid_codepoint (utf8.decode (b0 :: p)).1 = true := by
  by_cases c0 : b0 < 128
  · rw [utf8_decode_1 b0 p c0, utf8_encode_1 b0 (by omega), valid_iff]
    exact ⟨rfl, by omega, by omega⟩
  by_cases c1 : b0 < 194 ∨ 244 < b0
  · rw [utf8_decode_bad_lead b0 p hb (by omega)] at hi
    exact absurd rfl hi
  by_cases c2 : b0 < 224
  · obtain ⟨b1, t, rfl, h1, h2⟩ := utf8_shape1 b0 p (by omega) c2 hi hc
    have hb1 : b1 < 256 := hp b1 (List.mem_cons_self _ _)
    rw [Nat.mod_eq_of_lt hb1] at h1 h2
    rw [utf8_decode_2 b0 b1 t (by omega) c2 h1 h2,
      utf8_encode_2 _ (by omega) (by omega), valid_iff]
    refine ⟨?_, by omega, by omega⟩
    have e1 : ((b0 - 192) * 64 + (b1 - 128)) / 64 + 192 = b0 := by omega
    have e2 : ((b0 - 192) * 64 + (b1 - 128)) % 64 + 128 = b1 := by omega
    simp only [e1, e2, List.cons_append, List.nil_append]
  by_cases c3 : b0 < 240
  · obtain ⟨b1, b2, t, rfl, h1, h2⟩ := utf8_shape2 b0 p (by omega) c3 hi hc
    have hb1 : b1 < 256 := hp b1 (by simp)
    have hb2 : b2 < 256 := hp b2 (by simp)
    rw [Nat.mod_eq_of_lt hb1] at h1
    rw [Nat.mod_eq_of_lt hb2] at h2
    rw [utf8_decode_3 b0 b1 b2 t (by omega) c3 h1.1 h1.2 h2.1 h2.2] at hi ⊢
    generalize hv : ((b0 - 224) * 64 + (b1 - 128)) * 64 + (b2 - 128) = v at hi ⊢
    split_ifs at hi ⊢ with hcond
    · rw [utf8_encode_3 v (by omega) (by omega), valid_iff]
      refine ⟨?_, by omega, by omega⟩
      have e1 : v / 4096 + 224 = b0 := by omega
      have e2 : v / 64 % 64 + 128 = b1 := by omega
      have e3 : v % 64 + 128 = b2 := by omega
      simp only [e1, e2, e3, List.cons_append, List.nil_append]
    · exact absurd rfl hi
  · obtain ⟨b1, b2, b3, t, rfl, h1, h2, h3⟩ := utf8_shape3 b0 p (by omega) (by omega) hi hc
    have hb1 : b1 < 256 := hp b1 (by simp)
    have hb2 : b2 < 256 := hp b2 (by simp)
    have hb3 : b3 < 256 := hp b3 (by simp)
    rw [Nat.mod_eq_of_lt hb1] at h1
    rw [Nat.mod_eq_of_lt hb2] at h2
    rw [Nat.mod_eq_of_lt hb3] at h3
    rw [utf8_decode_4 b0 b1 b2 b3 t (by omega) (by omega) h1.1 h1.2 h2.1 h2.2 h3.1 h3.2] at hi ⊢
    generalize hv : (((b0 - 240) * 64 + (b1 - 128)) * 64 + (b2 - 128)) * 64 + (b3 - 128) = v
      at hi ⊢
    split_ifs at hi ⊢ with hcond
    · rw [utf8_encode_4 v (by omega) (by omega), valid_iff]
      refine ⟨?_, by omega, by omega⟩
      have e1 : v / 262144 + 240 = b0 := by omega
      have e2 : v / 4096 % 64 + 128 = b1 := by omega
      have e3 : v / 64 % 64 + 128 = b2 := by omega
      have e4 : v % 64 + 128 = b3 := by omega
      simp only [e1, e2, e3, e4, List.cons_append, List.nil_append]
    · exact absurd rfl hi

theorem utf16_decode_canonical (u : Nat) (p : List Nat) (hb : u < 65536)
    (hp : ∀ w ∈ p, w < 65536)
    (hi : (utf16.decode (u :: p)).1 ≠ illegal) (hc : (utf16.decode (u :: p)).1 ≠ incomplete) :
    u :: p = utf16.encode (utf16.decode (u :: p)).1 ++ (utf16.decode (u :: p)).2 ∧
      is_valid_codepoint (utf16.decode (u :: p)).1 = true := by
  by_cases c0 : u < 0xD800 ∨ 0xDFFF < u
  · rw [utf16_decode_1 u p hb c0, utf16_encode_1 u (by omega), valid_iff]
    exact ⟨rfl, by omega, by omega⟩
  have hu : u % 65536 = u := Nat.mod_eq_of_lt hb
  by_cases c1 : u > 0xDBFF
  · have : utf16.decode (u :: p) = (illegal, p) := by simp [utf16.decode, hu, c0, c1]
    rw [this] at hi
    exact absurd rfl hi
  cases p with
  | nil =>
    have : utf16.decode [u] = (incomplete, []) := by simp [utf16.decode, hu, c0, c1]
    rw [this] at hc
    exact absurd rfl hc
  | cons w t =>
    have hw : w < 65536 := hp w (by simp)
    have hw' : w % 65536 = w := Nat.mod_eq_of_lt hw
    by_cases c2 : w < 0xDC00 ∨ 0xDFFF < w
    · have : utf16.decode (u :: w :: t) = (illegal, t) := by
        simp [utf16.decode, hu, hw', c0, c1, c2]
      rw [this] at hi
      exact absurd rfl hi
    · rw [utf16_decode_2 u w t (by omega) (by omega) (by omega) (by omega)]
      generalize hv : (u - 0xD800) * 1024 + (w - 0xDC00) + 0x10000 = v
      rw [utf16_encode_2 v (by omega) (by omega), valid_iff]
      refine ⟨?_, by omega, by omega⟩
      have e1 : 0xD800 + (v - 0x10000) / 1024 = u := by omega
      have e2 : 0xDC00 + (v - 0x10000) % 1024 = w := by omega
      simp only [e1, e2, List.cons_append, List.nil_append]

theorem utf32_decode_canonical (u : Nat) (p : List Nat) (hb : u < 2 ^ 32)
    (hi : (utf32.decode (u :: p)).1 ≠ illegal) :
    u :: p = utf32.encode (utf32.decode (u :: p)).1 ++ (utf32.decode (u :: p)).2 ∧
      is_valid_codepoint (utf32.decode (u :: p)).1 = true := by
  rw [utf32_decode_cons u p hb] at hi ⊢
  have hu : u % 4294967296 = u := Nat.mod_eq_of_lt hb
  cases hv : is_valid_codepoint u with
  | false => simp [hv] at hi
  | true => simp [utf32.encode, hu, hv]

/-- For every codec, on a sequence of units of the codec's unit type, a value that
`decode` returns and that is not a sentinel is valid, and the units `decode` read
are exactly its encoding. -/
theorem decode_canonical (X : CharSize) (u : Nat) (p : List Nat)
    (hp : well_typed X (u :: p))
    (hi : (utf_traits.decode X (u :: p)).1 ≠ illegal)
    (hc : (utf_traits.decode X (u :: p)).1 ≠ incomplete) :
    u :: p = utf_traits.encode X (utf_traits.decode X (u :: p)).1 ++
        (utf_traits.decode X (u :: p)).2 ∧
      is_valid_codepoint (utf_traits.decode X (u :: p)).1 = true := by
  have hu := hp u (List.mem_cons_self _ _)
  have ht : ∀ w ∈ p, w < 2 ^ X.bits := fun w hw => hp w (List.mem_cons_of_mem _ hw)
  cases X
  · exact utf8_decode_canonical u p hu ht hi hc
  · exact utf16_decode_canonical u p hu ht hi hc
  · exact utf32_decode_canonical u p hu hi

/-! ## A valid sequence is the encoding of the code points it decodes to -/

theorem well_typed_of_append (X : CharSize) (a b : List Nat) (h : well_typed X (a ++ b)) :
    well_typed X b :=
  fun u hu => h u (List.mem_append_right a hu)

theorem valid_decompose (X : CharSize) :
    ∀ (n : Nat) (s : List Nat), s.length ≤ n → well_typed X s → valid_in X s →
      s = encode_all X (decode_all X s) ∧
        ∀ c ∈ decode_all X s, is_valid_codepoint c = true := by
  intro n
  induction n with
  | zero =>
    intro s hn _ _
    have hs : s = [] := List.length_eq_zero.1 (Nat.le_zero.1 hn)
    subst hs
    simp [decode_all_nil, encode_all]
  | succ n ih =>
    intro s hn ht hv
    cases s with
    | nil => simp [decode_all_nil, encode_all]
    | cons u p =>
      unfold valid_in at hv
      rw [decode_all_unfold] at hv ⊢
      have h0 := hv _ (List.mem_cons_self _ _)
      obtain ⟨hcan, hval⟩ := decode_canonical X u p ht h0.1 h0.2
      have hl := decode_len X u p
      simp only [List.length_cons] at hn
      have ht' : well_typed X (utf_traits.decode X (u :: p)).2 := by
        rw [hcan] at ht
        exact well_typed_of_append X _ _ ht
      have hv' : valid_in X (utf_traits.decode X (u :: p)).2 :=
        fun v hv1 => hv v (List.mem_cons_of_mem _ hv1)
      obtain ⟨ih1, ih2⟩ := ih _ (by omega) ht' hv'
      refine ⟨?_, ?_⟩
      · simp only [encode_all]
        rw [← ih1]
        exact hcan
      · intro c hc
        rcases List.mem_cons.1 hc with h | h
        · rw [h]; exact hval
        · exact ih2 c h

theorem round_trip (X Y : CharSize) (s : List Nat) (ht : well_typed X s)
    (hv : valid_in X s) : to_utf_string Y X (to_utf_string X Y s) = s := by
  obtain ⟨h1, h2⟩ := valid_decompose X s.length s (Nat.le_refl _) ht hv
  generalize decode_all X s = L at h1 h2
  rw [h1, to_utf_string_encode_all X Y L h2, to_utf_string_encode_all Y X L h2]

/-! ## The values `decode` returns -/

theorem utf8_decode_classes (s : List Nat) :
    (utf8.decode s).1 = illegal ∨ (utf8.decode s).1 = incomplete ∨
      is_valid_codepoint (utf8.decode s).1 = true := by
  cases s with
  | nil => right; left; rfl
  | cons u p =>
    rw [utf8_decode_mod]
    have hb : u % 256 < 256 := Nat.mod_lt _ (by decide)
    generalize u % 256 = b0 at hb
    by_cases c0 : b0 < 128
    · rw [utf8_decode_1 b0 p c0, valid_iff]
      right; right; omega
    by_cases c1 : b0 < 194 ∨ 244 < b0
    · rw [utf8_decode_bad_lead b0 p hb (by omega)]
      left; rfl
    by_cases c2 : b0 < 224
    · rw [utf8_decode_lead1 b0 p (by omega) c2]
      have h := utf8_read_trail_inv (b0 - 192) p
      unfold utf8.case1
      cases h' : utf8.read_trail (b0 - 192) p with
      | error e => rw [h'] at h; rcases h with h | h <;> simp [h]
      | ok s => dsimp only; split_ifs with g1 g2 <;> simp_all
    by_cases c3 : b0 < 240
    · rw [utf8_decode_lead2 b0 p (by omega) c3]
      have h := utf8_case2_inv (b0 - 224) p
      cases h' : utf8.case2 (b0 - 224) p with
      | error e => rw [h'] at h; rcases h with h | h <;> simp [h]
      | ok s => dsimp only; split_ifs with g1 g2 <;> simp_all
    · rw [utf8_decode_lead3 b0 p (by omega) (by omega)]
      have h := utf8_case3_inv (b0 - 240) p
      cases h' : utf8.case3 (b0 - 240) p with
      | error e => rw [h'] at h; rcases h with h | h <;> simp [h]
      | ok s => dsimp only; split_ifs with g1 g2 <;> simp_all

theorem utf16_decode_classes (s : List Nat) :
    (utf16.decode s).1 = illegal ∨ (utf16.decode s).1 = incomplete ∨
      is_valid_codepoint (utf16.decode s).1 = true := by
  cases s with
  | nil => right; left; rfl
  | cons u p =>
    have hb : u % 65536 < 65536 := Nat.mod_lt _ (by decide)
    cases p with
    | nil =>
      simp only [utf16.decode]
      split_ifs with g1 g2
      · right; right; rw [valid_iff]; dsimp only; omega
      · left; rfl
      · right; left; rfl
    | cons w t =>
      simp only [utf16.decode]
      split_ifs with g1 g2 g3
      · right; right; rw [valid_iff]; dsimp only; omega
      · left; rfl
      · left; rfl
      · right; right; rw [valid_iff, utf16_combine]; dsimp only; omega

theorem utf32_decode_classes (s : List Nat) :
    (utf32.decode s).1 = illegal ∨ (utf32.decode s).1 = incomplete ∨
      is_valid_codepoint (utf32.decode s).1 = true := by
  cases s with
  | nil => right; left; rfl
  | cons u p =>
    simp only [utf32.decode]
    split_ifs with g
    · left; rfl
    · right; right; simpa using g

/-! ## UTF-8: truncated sequences -/

theorem utf8_read_trail_nil (c : Nat) : utf8.read_trail c [] = .error (incomplete, []) := rfl

theorem utf8_trunc_2 (b0 : Nat) (h1 : 194 ≤ b0) (h2 : b0 < 224) :
    utf8.decode [b0] = (incomplete, []) := by
  rw [utf8_decode_lead1 b0 [] h1 h2]
  simp [utf8.case1, utf8_read_trail_nil]

theorem utf8_trunc_3 (b0 b1 : Nat) (h1 : 224 ≤ b0) (h2 : b0 < 240)
    (h3 : 128 ≤ b1) (h4 : b1 < 192) :
    utf8.decode [b0] = (incomplete, []) ∧ utf8.decode [b0, b1] = (incomplete, []) := by
  rw [utf8_decode_lead2 b0 [] h1 h2, utf8_decode_lead2 b0 [b1] h1 h2]
  simp [utf8.case2, utf8.case1, utf8_read_trail_nil,
    utf8_read_trail_ok (b0 - 224) b1 [] (by omega) h3 h4]

theorem utf8_trunc_4 (b0 b1 b2 : Nat) (h1 : 240 ≤ b0) (h2 : b0 ≤ 244)
    (h3 : 128 ≤ b1) (h4 : b1 < 192) (h5 : 128 ≤ b2) (h6 : b2 < 192) :
    utf8.decode [b0] = (incomplete, []) ∧ utf8.decode [b0, b1] = (incomplete, []) ∧
      utf8.decode [b0, b1, b2] = (incomplete, []) := by
  rw [utf8_decode_lead3 b0 [] h1 h2, utf8_decode_lead3 b0 [b1] h1 h2,
    utf8_decode_lead3 b0 [b1, b2] h1 h2]
  simp [utf8.case3, utf8.case2, utf8.case1, utf8_read_trail_nil,
    utf8_read_trail_ok (b0 - 240) b1 [] (by omega) h3 h4,
    utf8_read_trail_ok (b0 - 240) b1 [b2] (by omega) h3 h4,
    utf8_read_trail_ok ((b0 - 240) * 64 + (b1 - 128)) b2 [] (by omega) h5 h6]

theorem utf8_truncated (c k : Nat) (h1 : c ≤ 0x10FFFF) (h3 : 0x80 ≤ c) (hk : k < (utf8.encode c).length) :
    utf8.decode ((utf8.encode c).take k) = (incomplete, []) := by
  by_cases c2 : c ≤ 0x7FF
  · rw [utf8_encode_2 c (by omega) c2] at hk ⊢
    simp only [List.length_cons, List.length_nil] at hk
    have hk' : k = 0 ∨ k = 1 := by omega
    rcases hk' with rfl | rfl
    · rfl
    · exact utf8_trunc_2 _ (by omega) (by omega)
  by_cases c3 : c ≤ 0xFFFF
  · rw [utf8_encode_3 c (by omega) c3] at hk ⊢
    simp only [List.length_cons, List.length_nil] at hk
    have ht := utf8_trunc_3 (c / 4096 + 224) (c / 64 % 64 + 128)
      (by omega) (by omega) (by omega) (by omega)
    have hk' : k = 0 ∨ k = 1 ∨ k = 2 := by omega
    rcases hk' with rfl | rfl | rfl
    · rfl
    · exact ht.1
    · exact ht.2
  · rw [utf8_encode_4 c (by omega) (by omega)] at hk ⊢
    simp only [List.length_cons, List.length_nil] at hk
    have ht := utf8_trunc_4 (c / 262144 + 240) (c / 4096 % 64 + 128) (c / 64 % 64 + 128)
      (by omega) (by omega) (by omega) (by omega) (by omega) (by omega)
    have hk' : k = 0 ∨ k = 1 ∨ k = 2 ∨ k = 3 := by omega
    rcases hk' with rfl | rfl | rfl | rfl
    · rfl
    · exact ht.1
    · exact ht.2.1
    · exact ht.2.2

theorem utf16_truncated (c k : Nat) (h1 : c ≤ 0x10FFFF) (h3 : 0x10000 ≤ c)
    (hk : k < (utf16.encode c).length) :
    utf16.decode ((utf16.encode c).take k) = (incomplete, []) := by
  rw [utf16_encode_2 c (by omega) h1] at hk ⊢
  simp only [List.length_cons, List.length_nil] at hk
  have hk' : k = 0 ∨ k = 1 := by omega
  rcases hk' with rfl | rfl
  · rfl
  · have hu : (0xD800 + (c - 0x10000) / 1024) % 65536 = 0xD800 + (c - 0x10000) / 1024 :=
      Nat.mod_eq_of_lt (by omega)
    have c0 : ¬ (0xD800 + (c - 0x10000) / 1024 < 0xD800 ∨
        0xDFFF < 0xD800 + (c - 0x10000) / 1024) := by omega
    have c1 : ¬ (0xD800 + (c - 0x10000) / 1024 > 0xDBFF) := by omega
    simp only [List.take, utf16.decode, hu, c0, c1, if_false]

/-! ## UTF-8: the ranges of the lead and continuation bytes -/

theorem utf8_trail_length_inv (b : Nat) (h : b < 256) :
    (utf8.trail_length b = 0 → b < 128) ∧
    (utf8.trail_length b = 1 → 194 ≤ b ∧ b < 224) ∧
    (utf8.trail_length b = 2 → 224 ≤ b ∧ b < 240) ∧
    (utf8.trail_length b = 3 → 240 ≤ b ∧ b ≤ 244) := by
  unfold utf8.trail_length
  simp only
  refine ⟨?_, ?_, ?_, ?_⟩ <;> intro h' <;> split_ifs at h' <;> omega

/-! ## The length of an encoding, for every argument of `encode` -/

theorem utf8_encode_length (v : Nat) : ((utf8.encode v).size : Int) = utf8.width v := by
  unfold utf8.encode utf8.width encoded_chars.size
  split_ifs <;> rfl

theorem utf16_encode_length (v : Nat) : ((utf16.encode v).size : Int) = utf16.width v := by
  unfold utf16.encode utf16.width encoded_chars.size
  split_ifs <;> first | rfl | omega

theorem utf32_encode_length (v : Nat) : ((utf32.encode v).size : Int) = utf32.width v := rfl

theorem utf8_width_bounds (v : Nat) : 1 ≤ utf8.width v ∧ utf8.width v ≤ 4 := by
  unfold utf8.width
  split_ifs <;> omega

theorem utf16_width_bounds (v : Nat) : 1 ≤ utf16.width v ∧ utf16.width v ≤ 2 := by
  unfold utf16.width
  split_ifs <;> omega

theorem encode_length_bounds (Y : CharSize) (v : Nat) :
    1 ≤ (utf_traits.encode Y v).length ∧
      (utf_traits.encode Y v).length ≤ encoded_chars.capacity Y ∧
      (utf_traits.encode Y v).length ≤ 4 := by
  cases Y
  · have h1 := utf8_encode_length v
    have h2 := utf8_width_bounds v
    simp only [encoded_chars.size] at h1
    simp only [utf_traits.encode, encoded_chars.capacity]
    omega
  · have h1 := utf16_encode_length v
    have h2 := utf16_width_bounds v
    simp only [encoded_chars.size] at h1
    simp only [utf_traits.encode, encoded_chars.capacity]
    omega
  · simp [utf_traits.encode, encoded_chars.capacity, utf32.encode]

/-! ## The lazy view -/

theorem iterator_ctor_nil (X Y : CharSize) :
    iterator.ctor X Y [] = { next_chars_ := [], first_ := [], idx_ := 0 } := rfl

theorem iterator_eq_end_of_lt (X Y : CharSize) (enc rest : List Nat) (i : Nat)
    (h : i < enc.length) :
    iterator.eq { next_chars_ := enc, first_ := rest, idx_ := i } (iterator.ctor X Y []) =
      false := by
  have h1 : i ≠ enc.length := by omega
  have h2 : enc ≠ [] := by
    intro h0; rw [h0] at h; simp at h
  simp [iterator.eq, iterator.done, iterator_ctor_nil, encoded_chars.size, h1, h2]

theorem collect_loop_done (X Y : CharSize) (fuel : Nat) (it last : iterator)
    (h : it.eq last = true) : unicode_view.collect_loop X Y fuel it last = [] := by
  cases fuel with
  | zero => rfl
  | succ n => simp [unicode_view.collect_loop, h]

/-- From a state inside the buffer, the loop over the view gives the rest of the buffer
and then the eager conversion of the rest of the source. -/
theorem collect_loop_spec (X Y : CharSize) :
    ∀ (fuel : Nat) (enc rest : List Nat) (i : Nat), i < enc.length → enc.length ≤ 4 →
      (enc.length - i) + 4 * rest.length ≤ fuel →
      unicode_view.collect_loop X Y fuel { next_chars_ := enc, first_ := rest, idx_ := i }
          (iterator.ctor X Y []) =
        enc.drop i ++ to_utf_string X Y rest := by
  intro fuel
  induction fuel with
  | zero => intro enc rest i h1 h2 h3; omega
  | succ n ih =>
    intro enc rest i h1 h2 h3
    have hm : (i + 1) % 256 = i + 1 := Nat.mod_eq_of_lt (by omega)
    rw [unicode_view.collect_loop, iterator_eq_end_of_lt X Y enc rest i h1]
    simp only [Bool.false_eq_true, if_false, iterator.deref, iterator.incr, hm,
      encoded_chars.size]
    rw [List.drop_eq_getElem_cons h1, List.getD_eq_getElem _ _ h1, List.cons_append]
    congr 1
    by_cases hi : i + 1 = enc.length
    · cases rest with
      | nil =>
        simp only [hi, ne_eq, not_true_eq_false, and_false, if_false]
        rw [collect_loop_done]
        · simp [to_utf_string_nil]
        · simp [iterator.eq, iterator.done, iterator_ctor_nil, encoded_chars.size]
      | cons u r =>
        simp only [hi, ne_eq, reduceCtorEq, not_false_eq_true, and_self, if_true]
        have hb := encode_length_bounds Y (utf_traits.decode X (u :: r)).1
        have hl := decode_len X u r
        simp only [List.length_cons] at h3
        rw [ih _ _ 0 (by omega) hb.2.2 (by omega), List.drop_zero,
          List.drop_length, List.nil_append, to_utf_string_cons]
    · have hne : ¬ (i + 1 = enc.length ∧ rest ≠ []) := fun h => hi h.1
      simp only [hne, if_false]
      exact ih enc rest (i + 1) (by omega) h2 (by omega)

/-- The bound on the number of turns of the materialising loop is never reached:
the container built from a view holds the eager conversion of the source. -/
theorem to_container_eq (v : unicode_view) :
    v.to_container = to_utf_string v.inC v.outC v.first_ := by
  obtain ⟨X, Y, s⟩ := v
  cases s with
  | nil => rfl
  | cons u r =>
    have hb := encode_length_bounds Y (utf_traits.decode X (u :: r)).1
    have hl := decode_len X u r
    simp only [unicode_view.to_container, unicode_view.begin, unicode_view.end_,
      iterator.ctor]
    rw [← iterator_ctor_nil X Y, collect_loop_spec X Y _ _ _ 0 (by omega) hb.2.2
      (by simp only [List.length_cons]; omega), List.drop_zero, to_utf_string_cons]

theorem to_utf_string_eq_nil (X Y : CharSize) (s : List Nat) :
    to_utf_string X Y s = [] ↔ s = [] := by
  cases s with
  | nil => simp [to_utf_string_nil]
  | cons u r =>
    rw [to_utf_string_cons]
    have := encode_ne_nil Y (utf_traits.decode X (u :: r)).1
    simp [this]

/-! ## The states of a view iterator -/

theorem iterator_done_eq_end (X Y : CharSize) (it : iterator) (h1 : it.first_ = [])
    (h2 : it.idx_ = it.next_chars_.size) : it.eq (iterator.ctor X Y []) = true := by
  simp [iterator.eq, iterator.done, iterator_ctor_nil, encoded_chars.size, h1, h2]

theorem reachable_inv (v : unicode_view) (it : iterator) (h : reachable v it) :
    (it.first_ = [] ∧ it.idx_ = it.next_chars_.size ∧ it.eq v.end_ = true) ∨
      (1 ≤ it.next_chars_.size ∧ it.next_chars_.size ≤ encoded_chars.capacity v.outC ∧
        it.next_chars_.size ≤ 4 ∧ it.idx_ < it.next_chars_.size) := by
  induction h with
  | start =>
    obtain ⟨X, Y, s⟩ := v
    cases s with
    | nil => left; exact ⟨rfl, rfl, rfl⟩
    | cons u r =>
      right
      have hb := encode_length_bounds Y (utf_traits.decode X (u :: r)).1
      simp only [unicode_view.begin, iterator.ctor, encoded_chars.size]
      omega
  | next it _ hne ih =>
    rcases ih with ⟨_, _, he⟩ | ⟨h1, h2, h3, h4⟩
    · rw [he] at hne
      exact absurd hne (by decide)
    · have hm : (it.idx_ + 1) % 256 = it.idx_ + 1 := Nat.mod_eq_of_lt (by omega)
      by_cases hc : it.idx_ + 1 = it.next_chars_.size ∧ it.first_ ≠ []
      · right
        have hb := encode_length_bounds v.outC (utf_traits.decode v.inC it.first_).1
        simp only [iterator.incr, hm]
        rw [if_pos hc]
        simp only [encoded_chars.size]
        omega
      · simp only [iterator.incr, hm]
        rw [if_neg hc]
        by_cases hi : it.idx_ + 1 = it.next_chars_.size
        · left
          have hf : it.first_ = [] := by
            by_contra hf
            exact hc ⟨hi, hf⟩
          exact ⟨hf, hi, iterator_done_eq_end v.inC v.outC _ hf hi⟩
        · right
          simp only [encoded_chars.size] at h1 h2 h3 h4 hi ⊢
          omega

/-! ## The values `decode` returns fit 32 bits; the conversion to UTF-32 -/

theorem decode_classes (X : CharSize) (s : List Nat) :
    (utf_traits.decode X s).1 = illegal ∨ (utf_traits.decode X s).1 = incomplete ∨
      is_valid_codepoint (utf_traits.decode X s).1 = true := by
  cases X
  · exact utf8_decode_classes s
  · exact utf16_decode_classes s
  · exact utf32_decode_classes s

theorem decode_lt (X : CharSize) (s : List Nat) : (utf_traits.decode X s).1 < 2 ^ 32 := by
  rcases decode_classes X s with h | h | h
  · rw [h]; decide
  · rw [h]; decide
  · rw [valid_iff] at h; omega

theorem to_utf32_eq_decode_all (X : CharSize) :
    ∀ (n : Nat) (s : List Nat), s.length ≤ n → to_utf_string X .four s = decode_all X s := by
  intro n
  induction n with
  | zero =>
    intro s hn
    have hs : s = [] := List.length_eq_zero.1 (Nat.le_zero.1 hn)
    subst hs
    rfl
  | succ n ih =>
    intro s hn
    cases s with
    | nil => rfl
    | cons u r =>
      have hl := decode_len X u r
      simp only [List.length_cons] at hn
      rw [to_utf_string_cons, decode_all_unfold, ih _ (by omega)]
      have hlt := decode_lt X (u :: r)
      simp only [utf_traits.encode, utf32.encode, Nat.mod_eq_of_lt hlt, List.cons_append,
        List.nil_append]

/-! ## UTF-8: a continuation byte that does not match `10xxxxxx` -/

theorem utf8_bad_trail_1 (b0 x : Nat) (t : List Nat) (h1 : 194 ≤ b0) (h2 : b0 < 224)
    (hx : x < 256) (hb : x < 128 ∨ 192 ≤ x) :
    utf8.decode (b0 :: x :: t) = (illegal, t) := by
  rw [utf8_decode_lead1 b0 _ h1 h2]
  simp [utf8.case1, utf8_read_trail_bad _ x t hx hb]

theorem utf8_bad_trail_2 (b0 b1 x : Nat) (t : List Nat) (h1 : 224 ≤ b0) (h2 : b0 < 240)
    (h3 : 128 ≤ b1) (h4 : b1 < 192) (hx : x < 256) (hb : x < 128 ∨ 192 ≤ x) :
    utf8.decode (b0 :: x :: t) = (illegal, t) ∧
      utf8.decode (b0 :: b1 :: x :: t) = (illegal, t) := by
  rw [utf8_decode_lead2 b0 _ h1 h2, utf8_decode_lead2 b0 _ h1 h2]
  simp [utf8.case2, utf8.case1, utf8_read_trail_bad _ x t hx hb,
    utf8_read_trail_ok (b0 - 224) b1 (x :: t) (by omega) h3 h4]

theorem utf8_bad_trail_3 (b0 b1 b2 x : Nat) (t : List Nat) (h1 : 240 ≤ b0) (h2 : b0 ≤ 244)
    (h3 : 128 ≤ b1) (h4 : b1 < 192) (h5 : 128 ≤ b2) (h6 : b2 < 192)
    (hx : x < 256) (hb : x < 128 ∨ 192 ≤ x) :
    utf8.decode (b0 :: x :: t) = (illegal, t) ∧
      utf8.decode (b0 :: b1 :: x :: t) = (illegal, t) ∧
      utf8.decode (b0 :: b1 :: b2 :: x :: t) = (illegal, t) := by
  rw [utf8_decode_lead3 b0 _ h1 h2, utf8_decode_lead3 b0 _ h1 h2,
    utf8_decode_lead3 b0 _ h1 h2]
  simp [utf8.case3, utf8.case2, utf8.case1, utf8_read_trail_bad _ x t hx hb,
    utf8_read_trail_ok (b0 - 240) b1 (x :: t) (by omega) h3 h4,
    utf8_read_trail_ok (b0 - 240) b1 (b2 :: x :: t) (by omega) h3 h4,
    utf8_read_trail_ok ((b0 - 240) * 64 + (b1 - 128)) b2 (x :: t) (by omega) h5 h6]

theorem is_trail_false_iff (b : Nat) (h : b < 256) :
    utf8.is_trail b = false ↔ b < 128 ∨ 192 ≤ b := by
  rw [Bool.eq_false_iff, Ne, is_trail_iff b h]
  omega

/-! ## `decode_valid` on the encoding of a code point -/

theorem utf8_decode_valid_1 (b : Nat) (t : List Nat) (h : b < 128) :
    utf8.decode_valid (b :: t) = (b, t) := by
  have hb : b % 256 = b := Nat.mod_eq_of_lt (by omega)
  have hl : b < 192 := by omega
  simp [utf8.decode_valid, hb, hl]

theorem utf8_decode_valid_2 (b0 b1 : Nat) (t : List Nat) (h1 : 192 ≤ b0) (h2 : b0 < 224)
    (h3 : b1 < 256) :
    utf8.decode_valid (b0 :: b1 :: t) = (b0 % 32 * 64 + b1 % 64, t) := by
  have hb : b0 % 256 = b0 := Nat.mod_eq_of_lt (by omega)
  have hb1 : b1 % 256 = b1 := Nat.mod_eq_of_lt h3
  have c1 : ¬ b0 < 192 := by omega
  have hs : (b0 % 32) <<< 6 % 4294967296 = (b0 % 32) <<< 6 := by
    rw [Nat.shiftLeft_eq]; apply Nat.mod_eq_of_lt; omega
  simp [utf8.decode_valid, hb, hb1, c1, h2, and_1F, and_3F, hs,
    shl6_or _ _ (Nat.mod_lt b1 (by decide : 64 > 0))]

theorem utf8_decode_valid_3 (b0 b1 b2 : Nat) (t : List Nat) (h1 : 224 ≤ b0) (h2 : b0 < 240)
    (h3 : b1 < 256) (h4 : b2 < 256) :
    utf8.decode_valid (b0 :: b1 :: b2 :: t) =
      ((b0 % 16 * 64 + b1 % 64) * 64 + b2 % 64, t) := by
  have hb : b0 % 256 = b0 := Nat.mod_eq_of_lt (by omega)
  have hb1 : b1 % 256 = b1 := Nat.mod_eq_of_lt h3
  have hb2 : b2 % 256 = b2 := Nat.mod_eq_of_lt h4
  have c1 : ¬ b0 < 192 := by omega
  have c2 : ¬ b0 < 224 := by omega
  have hs : (b0 % 16) <<< 6 % 4294967296 = (b0 % 16) <<< 6 := by
    rw [Nat.shiftLeft_eq]; apply Nat.mod_eq_of_lt; omega
  have hs2 : (b0 % 16 * 64 + b1 % 64) <<< 6 % 4294967296 = (b0 % 16 * 64 + b1 % 64) <<< 6 := by
    rw [Nat.shiftLeft_eq]; apply Nat.mod_eq_of_lt; omega
  simp [utf8.decode_valid, hb, hb1, hb2, c1, c2, h2, and_0F, and_3F, hs,
    shl6_or _ _ (Nat.mod_lt b1 (by decide : 64 > 0)), hs2,
    shl6_or _ _ (Nat.mod_lt b2 (by decide : 64 > 0))]

theorem utf8_decode_valid_4 (b0 b1 b2 b3 : Nat) (t : List Nat) (h1 : 240 ≤ b0)
    (h2 : b0 < 256) (h3 : b1 < 256) (h4 : b2 < 256) (h5 : b3 < 256) :
    utf8.decode_valid (b0 :: b1 :: b2 :: b3 :: t) =
      (((b0 % 8 * 64 + b1 % 64) * 64 + b2 % 64) * 64 + b3 % 64, t) := by
  have hb : b0 % 256 = b0 := Nat.mod_eq_of_lt (by omega)
  have hb1 : b1 % 256 = b1 := Nat.mod_eq_of_lt h3
  have hb2 : b2 % 256 = b2 := Nat.mod_eq_of_lt h4
  have hb3 : b3 % 256 = b3 := Nat.mod_eq_of_lt h5
  have c1 : ¬ b0 < 192 := by omega
  have c2 : ¬ b0 < 224 := by omega
  have c3 : ¬ b0 < 240 := by omega
  have hs : (b0 % 8) <<< 6 % 4294967296 = (b0 % 8) <<< 6 := by
    rw [Nat.shiftLeft_eq]; apply Nat.mod_eq_of_lt; omega
  have hs2 : (b0 % 8 * 64 + b1 % 64) <<< 6 % 4294967296 = (b0 % 8 * 64 + b1 % 64) <<< 6 := by
    rw [Nat.shiftLeft_eq]; apply Nat.mod_eq_of_lt; omega
  have hs3 : ((b0 % 8 * 64 + b1 % 64) * 64 + b2 % 64) <<< 6 % 4294967296 =
      ((b0 % 8 * 64 + b1 % 64) * 64 + b2 % 64) <<< 6 := by
    rw [Nat.shiftLeft_eq]; apply Nat.mod_eq_of_lt; omega
  simp [utf8.decode_valid, hb, hb1, hb2, hb3, c1, c2, c3, and_07, and_3F, hs,
    shl6_or _ _ (Nat.mod_lt b1 (by decide : 64 > 0)), hs2,
    shl6_or _ _ (Nat.mod_lt b2 (by decide : 64 > 0)), hs3,
    shl6_or _ _ (Nat.mod_lt b3 (by decide : 64 > 0))]

theorem utf8_decode_valid_encode (c : Nat) (t : List Nat) (h : is_valid_codepoint c = true) :
    utf8.decode_valid (utf8.encode c ++ t) = (c, t) := by
  rw [valid_iff] at h
  by_cases h1 : c ≤ 0x7F
  · rw [utf8_encode_1 c h1]
    exact utf8_decode_valid_1 c t (by omega)
  by_cases h2 : c ≤ 0x7FF
  · rw [utf8_encode_2 c (by omega) h2]
    simp only [List.cons_append, List.nil_append]
    rw [utf8_decode_valid_2 _ _ _ (by omega) (by omega) (by omega)]
    have : (c / 64 + 192) % 32 * 64 + (c % 64 + 128) % 64 = c := by omega
    rw [this]
  by_cases h3 : c ≤ 0xFFFF
  · rw [utf8_encode_3 c (by omega) h3]
    simp only [List.cons_append, List.nil_append]
    rw [utf8_decode_valid_3 _ _ _ _ (by omega) (by omega) (by omega) (by omega)]
    have : ((c / 4096 + 224) % 16 * 64 + (c / 64 % 64 + 128) % 64) * 64 +
        (c % 64 + 128) % 64 = c := by omega
    rw [this]
  · rw [utf8_encode_4 c (by omega) (by omega)]
    simp only [List.cons_append, List.nil_append]
    rw [utf8_decode_valid_4 _ _ _ _ _ (by omega) (by omega) (by omega) (by omega) (by omega)]
    have : (((c / 262144 + 240) % 8 * 64 + (c / 4096 % 64 + 128) % 64) * 64 +
        (c / 64 % 64 + 128) % 64) * 64 + (c % 64 + 128) % 64 = c := by omega
    rw [this]

theorem utf16_decode_valid_1 (w1 : Nat) (t : List Nat) (h : w1 < 65536)
    (h1 : w1 < 0xD800 ∨ 0xDFFF < w1) : utf16.decode_valid (w1 :: t) = (w1, t) := by
  have hw : w1 % 65536 = w1 := Nat.mod_eq_of_lt h
  simp [utf16.decode_valid, hw, h1]

theorem utf16_decode_valid_2 (w1 w2 : Nat) (t : List Nat) (h1 : 0xD800 ≤ w1)
    (h2 : w1 ≤ 0xDFFF) (h3 : w2 < 65536) :
    utf16.decode_valid (w1 :: w2 :: t) = (w1 % 1024 * 1024 + w2 % 1024 + 0x10000, t) := by
  have hw1 : w1 % 65536 = w1 := Nat.mod_eq_of_lt (by omega)
  have hw2 : w2 % 65536 = w2 := Nat.mod_eq_of_lt h3
  have c1 : ¬ (w1 < 0xD800 ∨ 0xDFFF < w1) := by omega
  unfold utf16.decode_valid
  simp only [List.headD_cons, List.tail_cons, hw1, hw2]
  rw [if_neg c1, utf16_combine]

theorem utf16_decode_valid_encode (c : Nat) (t : List Nat) (h : is_valid_codepoint c = true) :
    utf16.decode_valid (utf16.encode c ++ t) = (c, t) := by
  rw [valid_iff] at h
  by_cases h1 : c ≤ 0xFFFF
  · rw [utf16_encode_1 c h1]
    exact utf16_decode_valid_1 c t (by omega) (by omega)
  · rw [utf16_encode_2 c (by omega) h.1]
    simp only [List.cons_append, List.nil_append]
    rw [utf16_decode_valid_2 _ _ _ (by omega) (by omega) (by omega)]
    have : (0xD800 + (c - 0x10000) / 1024) % 1024 * 1024 +
        (0xDC00 + (c - 0x10000) % 1024) % 1024 + 0x10000 = c := by omega
    rw [this]

theorem utf32_decode_valid_encode (c : Nat) (t : List Nat) (h : is_valid_codepoint c = true) :
    utf32.decode_valid (utf32.encode c ++ t) = (c, t) := by
  have h2 := (valid_iff c).1 h
  have hu : c % 4294967296 = c := Nat.mod_eq_of_lt (by omega)
  simp [utf32.encode, utf32.decode_valid, hu]

theorem decode_valid_encode (X : CharSize) (c : Nat) (t : List Nat)
    (h : is_valid_codepoint c = true) :
    utf_traits.decode_valid X (utf_traits.encode X c ++ t) = (c, t) := by
  cases X
  · exact utf8_decode_valid_encode c t h
  · exact utf16_decode_valid_encode c t h
  · exact utf32_decode_valid_encode c t h

/-- On units of the codec's unit type, where `decode` returns a value that is not a
sentinel, `decode_valid` returns the same value and leaves the same cursor. -/
theorem decode_valid_eq_decode (X : CharSize) (s : List Nat) (ht : well_typed X s)
    (hi : (utf_traits.decode X s).1 ≠ illegal)
    (hc : (utf_traits.decode X s).1 ≠ incomplete) :
    utf_traits.decode_valid X s = utf_traits.decode X s := by
  cases s with
  | nil =>
    exfalso
    apply hc
    cases X <;> rfl
  | cons u p =>
    obtain ⟨hcan, hval⟩ := decode_canonical X u p ht hi hc
    conv_lhs => rw [hcan]
    rw [decode_valid_encode X _ _ hval]

/-! ## The positional output iterator -/

theorem encode_out_positional_snd_lt (Y : CharSize) (c out : Nat) (m : Nat → Nat) (i : Nat)
    (h : i < out) : (utf_traits.encode_out positional Y c out m).2 i = m i := by
  have hne : i ≠ out + 1 ∧ i ≠ out + 1 + 1 ∧ i ≠ out + 1 + 1 + 1 := by omega
  have h0 : i ≠ out := by omega
  cases Y
  · simp only [utf_traits.encode_out, utf8.encode_out, positional]
    split_ifs <;> simp [hne.1, hne.2.1, hne.2.2, h0]
  · simp only [utf_traits.encode_out, utf16.encode_out, positional]
    split_ifs <;> simp [hne.1, hne.2.1, hne.2.2, h0]
  · simp [utf_traits.encode_out, utf32.encode_out, positional, h0]

/-- The iterator `convert` returns is the iterator it was given, whatever the source:
the loop never assigns to `out`. -/
theorem convert_returns_out {I M : Type} (X Y : CharSize) (O : OutIter I M) :
    ∀ (n : Nat) (s : List Nat) (out : I) (m : M),
      (convert_loop X Y O n s out m).1 = out := by
  intro n
  induction n with
  | zero => intro s out m; rfl
  | succ n ih =>
    intro s out m
    cases s with
    | nil => rfl
    | cons u r =>
      simp only [convert_loop]
      exact ih _ _ _

/-! ## The cursor after `decode` is a later position of the same range -/

theorem utf8_read_trail_suffix (c : Nat) (p : List Nat) :
    match utf8.read_trail c p with
    | .ok s => s.2 <:+ p
    | .error e => e.2 <:+ p := by
  cases p with
  | nil => simp [utf8.read_trail]
  | cons b t =>
    simp only [utf8.read_trail]
    split_ifs <;> exact List.suffix_cons b t

theorem utf8_case2_suffix (c : Nat) (p : List Nat) :
    match utf8.case2 c p with
    | .ok s => s.2 <:+ p
    | .error e => e.2 <:+ p := by
  have h1 := utf8_read_trail_suffix c p
  unfold utf8.case2
  cases h : utf8.read_trail c p with
  | error e => rw [h] at h1; exact h1
  | ok s =>
    rw [h] at h1
    have h2 := utf8_read_trail_suffix s.1 s.2
    simp only [utf8.case1]
    cases h' : utf8.read_trail s.1 s.2 with
    | error e => rw [h'] at h2; exact List.IsSuffix.trans h2 h1
    | ok s' => rw [h'] at h2; exact List.IsSuffix.trans h2 h1

theorem utf8_case3_suffix (c : Nat) (p : List Nat) :
    match utf8.case3 c p with
    | .ok s => s.2 <:+ p
    | .error e => e.2 <:+ p := by
  have h1 := utf8_read_trail_suffix c p
  unfold utf8.case3
  cases h : utf8.read_trail c p with
  | error e => rw [h] at h1; exact h1
  | ok s =>
    rw [h] at h1
    have h2 := utf8_case2_suffix s.1 s.2
    dsimp only
    cases h' : utf8.case2 s.1 s.2 with
    | error e => rw [h'] at h2; exact List.IsSuffix.trans h2 h1
    | ok s' => rw [h'] at h2; exact List.IsSuffix.trans h2 h1

theorem utf8_decode_suffix (u : Nat) (rest : List Nat) :
    (utf8.decode (u :: rest)).2 <:+ rest := by
  simp only [utf8.decode]
  split_ifs with h1 h2 h3 h4 h5
  · exact List.suffix_refl rest
  · exact List.suffix_refl rest
  · have := utf8_case3_suffix (u % 256 &&& (1 <<< (6 - utf8.trail_length (u % 256)).toNat - 1)) rest
    revert this
    cases utf8.case3 (u % 256 &&& (1 <<< (6 - utf8.trail_length (u % 256)).toNat - 1)) rest with
    | error e => exact fun h => h
    | ok s => intro h; dsimp only at h ⊢; split_ifs <;> exact h
  · have := utf8_case2_suffix (u % 256 &&& (1 <<< (6 - utf8.trail_length (u % 256)).toNat - 1)) rest
    revert this
    cases utf8.case2 (u % 256 &&& (1 <<< (6 - utf8.trail_length (u % 256)).toNat - 1)) rest with
    | error e => exact fun h => h
    | ok s => intro h; dsimp only at h ⊢; split_ifs <;> exact h
  · have := utf8_read_trail_suffix (u % 256 &&& (1 <<< (6 - utf8.trail_length (u % 256)).toNat - 1)) rest
    revert this
    simp only [utf8.case1]
    cases utf8.read_trail (u % 256 &&& (1 <<< (6 - utf8.trail_length (u % 256)).toNat - 1)) rest with
    | error e => exact fun h => h
    | ok s => intro h; dsimp only at h ⊢; split_ifs <;> exact h
  · dsimp only
    split_ifs <;> exact List.suffix_refl rest

theorem utf16_decode_suffix (u : Nat) (rest : List Nat) :
    (utf16.decode (u :: rest)).2 <:+ rest := by
  cases rest with
  | nil =>
    simp only [utf16.decode]
    split_ifs <;> exact List.suffix_refl _
  | cons b t =>
    simp only [utf16.decode]
    split_ifs <;> first | exact List.suffix_refl _ | exact List.suffix_cons b t

theorem decode_suffix (X : CharSize) (u : Nat) (rest : List Nat) :
    (utf_traits.decode X (u :: rest)).2 <:+ rest := by
  cases X
  · exact utf8_decode_suffix u rest
  · exact utf16_decode_suffix u rest
  · simp only [utf_traits.decode, utf32_decode_len]
    exact List.suffix_refl rest

/-- On a non-empty range `decode` reads an initial segment of at least one unit and at
most `max_width` units, and stops inside the range. -/
theorem decode_consumes (X : CharSize) (u : Nat) (rest : List Nat) :
    ∃ pre, u :: rest = pre ++ (utf_traits.decode X (u :: rest)).2 ∧
      1 ≤ pre.length ∧ pre.length ≤ utf_traits.max_width X := by
  obtain ⟨q, hq⟩ := decode_suffix X u rest
  refine ⟨u :: q, by rw [List.cons_append, hq], by simp, ?_⟩
  have hlen : q.length + (utf_traits.decode X (u :: rest)).2.length = rest.length := by
    rw [← List.length_append, hq]
  cases X
  · have h := utf8_decode_len u rest
    simp only [utf_traits.decode] at hlen
    simp only [utf_traits.max_width, utf8.max_width, List.length_cons]
    omega
  · have h := utf16_decode_len u rest
    simp only [utf_traits.decode] at hlen
    simp only [utf_traits.max_width, utf16.max_width, List.length_cons]
    omega
  · have h := utf32_decode_len u rest
    simp only [utf_traits.decode] at hlen
    rw [h] at hlen
    simp only [utf_traits.max_width, utf32.max_width, List.length_cons]
    omega

/-- Whatever the bound on the number of calls, `decode` is called at most once per unit
of the source. -/
theorem decode_all_loop_length (X : CharSize) :
    ∀ (fuel : Nat) (s : List Nat), (decode_all_loop X fuel s).length ≤ s.length := by
  intro fuel
  induction fuel with
  | zero => intro s; simp [decode_all_loop]
  | succ n ih =>
    intro s
    cases s with
    | nil => simp [decode_all_loop]
    | cons u r =>
      have hl := decode_len X u r
      have := ih (utf_traits.decode X (u :: r)).2
      simp only [decode_all_loop, List.length_cons]
      omega

/-! ## The encoding of a sentinel decodes to a sentinel -/

theorem utf16_decode_low (w1 : Nat) (t : List Nat) (h1 : 0xDC00 ≤ w1) (h2 : w1 ≤ 0xDFFF) :
    utf16.decode (w1 :: t) = (illegal, t) := by
  have e1 : w1 % 65536 = w1 := Nat.mod_eq_of_lt (by omega)
  have c0 : ¬ (w1 < 0xD800 ∨ 0xDFFF < w1) := by omega
  have c1 : w1 > 0xDBFF := by omega
  simp only [utf16.decode, e1, c0, c1, if_false, if_true]

theorem decode_all_append_encode (Y : CharSize) (c : Nat) (t : List Nat)
    (h : is_valid_codepoint c = true) :
    decode_all Y (utf_traits.encode Y c ++ t) = c :: decode_all Y t := by
  cases he : utf_traits.encode Y c with
  | nil => exact absurd he (encode_ne_nil Y c)
  | cons u r =>
    rw [List.cons_append, decode_all_unfold, ← List.cons_append, ← he, decode_encode Y c t h]

theorem sentinel_stays_visible (Y : CharSize) (c : Nat) (t : List Nat)
    (hc : c = illegal ∨ c = incomplete) :
    illegal ∈ decode_all Y (utf_traits.encode Y c ++ t) := by
  cases Y
  · have h8 : ∃ r, utf_traits.encode .one c = 0xFF :: r := by
      rcases hc with rfl | rfl
      · exact ⟨_, (by decide : utf8.encode illegal = [0xFF, 0xBF, 0xBF, 0xBF])⟩
      · exact ⟨_, (by decide : utf8.encode incomplete = [0xFF, 0xBF, 0xBF, 0xBE])⟩
    obtain ⟨r, hr⟩ := h8
    rw [hr, List.cons_append, decode_all_unfold]
    have : utf_traits.decode .one (0xFF :: (r ++ t)) = (illegal, r ++ t) :=
      utf8_decode_bad_lead 0xFF _ (by decide) (by decide)
    rw [this]
    exact List.mem_cons_self _ _
  · have h16 : ∃ lo, utf_traits.encode .two c = [0xFFBF, lo] ∧ 0xDC00 ≤ lo ∧ lo ≤ 0xDFFF := by
      rcases hc with rfl | rfl
      · exact ⟨0xDFFF, (by decide : utf16.encode illegal = [0xFFBF, 0xDFFF]), by decide,
          by decide⟩
      · exact ⟨0xDFFE, (by decide : utf16.encode incomplete = [0xFFBF, 0xDFFE]), by decide,
          by decide⟩
    obtain ⟨lo, hr, h1, h2⟩ := h16
    rw [hr]
    simp only [List.cons_append, List.nil_append]
    rw [decode_all_unfold]
    have d1 : utf_traits.decode .two (0xFFBF :: lo :: t) = (0xFFBF, lo :: t) :=
      utf16_decode_1 0xFFBF _ (by decide) (by decide)
    rw [d1]
    simp only
    rw [decode_all_unfold]
    have d2 : utf_traits.decode .two (lo :: t) = (illegal, t) := utf16_decode_low lo t h1 h2
    rw [d2]
    exact List.mem_cons_of_mem _ (List.mem_cons_self _ _)
  · have h32 : utf_traits.encode .four c = [c] := by
      rcases hc with rfl | rfl <;> decide
    rw [h32]
    simp only [List.cons_append, List.nil_append]
    rw [decode_all_unfold]
    have : utf_traits.decode .four (c :: t) = (illegal, t) := by
      have hv : is_valid_codepoint c = false := by rcases hc with rfl | rfl <;> decide
      have hlt : c < 2 ^ 32 := by rcases hc with rfl | rfl <;> decide
      have := utf32_decode_cons c t hlt
      rw [hv] at this
      simpa using this
    rw [this]
    exact List.mem_cons_self _ _

/-- If decoding the converted sequence never meets a sentinel, decoding the source
never met one. -/
theorem valid_of_converted_valid (X Y : CharSize) :
    ∀ (n : Nat) (s : List Nat), s.length ≤ n →
      valid_in Y (to_utf_string X Y s) → valid_in X s := by
  intro n
  induction n with
  | zero =>
    intro s hn _
    have hs : s = [] := List.length_eq_zero.1 (Nat.le_zero.1 hn)
    subst hs
    intro v hv
    simp [decode_all_nil] at hv
  | succ n ih =>
    intro s hn hv
    cases s with
    | nil =>
      intro v hv
      simp [decode_all_nil] at hv
    | cons u r =>
      have hl := decode_len X u r
      simp only [List.length_cons] at hn
      rw [to_utf_string_cons] at hv
      unfold valid_in
      rw [decode_all_unfold]
      rcases decode_classes X (u :: r) with hc | hc | hc
      · exact absurd rfl (hv illegal (sentinel_stays_visible Y _ _ (Or.inl hc))).1
      · exact absurd rfl (hv illegal (sentinel_stays_visible Y _ _ (Or.inr hc))).1
      · unfold valid_in at hv
        rw [decode_all_append_encode Y _ _ hc] at hv
        have hrest : valid_in X (utf_traits.decode X (u :: r)).2 :=
          ih _ (by omega) (fun v hv1 => hv v (List.mem_cons_of_mem _ hv1))
        intro v hv1
        rcases List.mem_cons.1 hv1 with h | h
        · rw [h]; exact hv _ (List.mem_cons_self _ _)
        · exact hrest v h

/-! ## Claims -/

/-- C1: for every list `L` of valid code points and every source form `X`, the eager
conversions `to_u8string`, `to_u16string` and `to_u32string` applied to the
`X`-encoding of `L` (the concatenation of the encodings of its code points) yield
exactly the UTF-8, UTF-16 and UTF-32 encodings of `L`. -/
theorem C1_eager_conversion_of_encoding (X : CharSize) (L : List Nat)
    (hL : ∀ c ∈ L, c ≤ 0x10FFFF ∧ ¬ (0xD800 ≤ c ∧ c ≤ 0xDFFF)) :
    to_u8string X (encode_all X L) = encode_all .one L ∧
    to_u16string X (encode_all X L) = encode_all .two L ∧
    to_u32string X (encode_all X L) = encode_all .four L := by
  have hv : ∀ c ∈ L, is_valid_codepoint c = true := fun c hc => (valid_iff c).2 (hL c hc)
  exact ⟨to_utf_string_encode_all X .one L hv, to_utf_string_encode_all X .two L hv,
    to_utf_string_encode_all X .four L hv⟩

/-- C1 at the bytes `0x61, 0x62`: they convert to the UTF-16 units `0x0061, 0x0062`
and to the UTF-32 units `0x00000061, 0x00000062`. -/
theorem C1_eager_conversion_of_encoding_witness :
    (∀ c ∈ [0x61, 0x62], c ≤ 0x10FFFF ∧ ¬ (0xD800 ≤ c ∧ c ≤ 0xDFFF)) ∧
    to_u8string .one [0x61, 0x62] = [0x61, 0x62] ∧
    to_u16string .one [0x61, 0x62] = [0x0061, 0x0062] ∧
    to_u32string .one [0x61, 0x62] = [0x00000061, 0x00000062] :=
  ⟨by decide, C1_eager_conversion_of_encoding .one [0x61, 0x62] (by decide)⟩

/-- C2: round trip.  For every ordered pair `(X, Y)` of the three forms (`X = Y`
included) and every sequence `s` of units of form `X` that is valid in `X` (no call of
`decode` over it returns `ILLEGAL` or `INCOMPLETE`), converting `s` from `X` to `Y` and
the result back from `Y` to `X` reproduces `s` exactly. -/
theorem C2_round_trip (X Y : CharSize) (s : List Nat)
    (ht : well_typed X s) (hv : valid_in X s) :
    to_utf_string Y X (to_utf_string X Y s) = s :=
  round_trip X Y s ht hv

/-- C2 at the UTF-8 bytes of `U+0024 U+20AC U+1F60E`, through UTF-16 and back. -/
theorem C2_round_trip_witness :
    well_typed .one [0x24, 0xE2, 0x82, 0xAC, 0xF0, 0x9F, 0x98, 0x8E] ∧
    valid_in .one [0x24, 0xE2, 0x82, 0xAC, 0xF0, 0x9F, 0x98, 0x8E] ∧
    to_utf_string .two .one
        (to_utf_string .one .two [0x24, 0xE2, 0x82, 0xAC, 0xF0, 0x9F, 0x98, 0x8E]) =
      [0x24, 0xE2, 0x82, 0xAC, 0xF0, 0x9F, 0x98, 0x8E] :=
  ⟨by decide, by decide,
   C2_round_trip .one .two [0x24, 0xE2, 0x82, 0xAC, 0xF0, 0x9F, 0x98, 0x8E]
     (by decide) (by decide)⟩

/-- C3: UTF-8 codec round trip.  For every valid code point `c` (at most `0x10FFFF` and
not a surrogate) and every byte sequence `t`, `decode` applied to `encode(c)` followed
by `t` returns exactly `c` and leaves the cursor at the start of `t`. -/
theorem C3_utf8_decode_encode (c : Nat) (t : List Nat)
    (h1 : c ≤ 0x10FFFF) (h2 : ¬ (0xD800 ≤ c ∧ c ≤ 0xDFFF)) :
    utf8.decode (utf8.encode c ++ t) = (c, t) :=
  utf8_decode_encode c t ((valid_iff c).2 ⟨h1, h2⟩)

/-- C3 at the boundary code points `0x7F`, `0x80`, `0x7FF`, `0x800`, `0xFFFF`,
`0x10000` and `0x10FFFF`, each followed by the byte `0x41`. -/
theorem C3_utf8_decode_encode_witness :
    utf8.decode (utf8.encode 0x7F ++ [0x41]) = (0x7F, [0x41]) ∧
    utf8.decode (utf8.encode 0x80 ++ [0x41]) = (0x80, [0x41]) ∧
    utf8.decode (utf8.encode 0x7FF ++ [0x41]) = (0x7FF, [0x41]) ∧
    utf8.decode (utf8.encode 0x800 ++ [0x41]) = (0x800, [0x41]) ∧
    utf8.decode (utf8.encode 0xFFFF ++ [0x41]) = (0xFFFF, [0x41]) ∧
    utf8.decode (utf8.encode 0x10000 ++ [0x41]) = (0x10000, [0x41]) ∧
    utf8.decode (utf8.encode 0x10FFFF ++ [0x41]) = (0x10FFFF, [0x41]) :=
  ⟨C3_utf8_decode_encode 0x7F [0x41] (by decide) (by decide),
   C3_utf8_decode_encode 0x80 [0x41] (by decide) (by decide),
   C3_utf8_decode_encode 0x7FF [0x41] (by decide) (by decide),
   C3_utf8_decode_encode 0x800 [0x41] (by decide) (by decide),
   C3_utf8_decode_encode 0xFFFF [0x41] (by decide) (by decide),
   C3_utf8_decode_encode 0x10000 [0x41] (by decide) (by decide),
   C3_utf8_decode_encode 0x10FFFF [0x41] (by decide) (by decide)⟩

/-- C4: UTF-16 codec round trip.  For every valid code point `c`, `encode(c)` is the
single unit `c` when `c <= 0xFFFF`, and otherwise a pair `(hi, lo)` with `hi` in
`0xD800..0xDBFF`, `lo` in `0xDC00..0xDFFF` and `combine_surrogate(hi, lo) = c`; and for
every unit sequence `t`, `decode` applied to `encode(c)` followed by `t` returns
exactly `c` with the cursor left at the start of `t`. -/
theorem C4_utf16_encode_decode (c : Nat) (t : List Nat)
    (h1 : c ≤ 0x10FFFF) (h2 : ¬ (0xD800 ≤ c ∧ c ≤ 0xDFFF)) :
    (c ≤ 0xFFFF → utf16.encode c = [c]) ∧
    (0xFFFF < c → ∃ hi lo, utf16.encode c = [hi, lo] ∧
      0xD800 ≤ hi ∧ hi ≤ 0xDBFF ∧ 0xDC00 ≤ lo ∧ lo ≤ 0xDFFF ∧
      utf16.combine_surrogate hi lo = c) ∧
    utf16.decode (utf16.encode c ++ t) = (c, t) := by
  refine ⟨utf16_encode_1 c, fun h => ?_, utf16_decode_encode c t ((valid_iff c).2 ⟨h1, h2⟩)⟩
  refine ⟨_, _, utf16_encode_2 c h h1, by omega, by omega, by omega, by omega, ?_⟩
  rw [utf16_combine]
  omega

/-- C4 at the code points `0x1F60E` (the pair `0xD83D, 0xDE0E`) and `0x20AC` (one
unit). -/
theorem C4_utf16_encode_decode_witness :
    utf16.encode 0x20AC = [0x20AC] ∧
    utf16.encode 0x1F60E = [0xD83D, 0xDE0E] ∧
    utf16.combine_surrogate 0xD83D 0xDE0E = 0x1F60E ∧
    utf16.decode (utf16.encode 0x20AC ++ [0x41]) = (0x20AC, [0x41]) ∧
    utf16.decode (utf16.encode 0x1F60E ++ [0x41]) = (0x1F60E, [0x41]) :=
  ⟨(C4_utf16_encode_decode 0x20AC [0x41] (by decide) (by decide)).1 (by decide),
   by decide, by decide,
   (C4_utf16_encode_decode 0x20AC [0x41] (by decide) (by decide)).2.2,
   (C4_utf16_encode_decode 0x1F60E [0x41] (by decide) (by decide)).2.2⟩

/-- C5: for each of the three codecs and every input unit sequence, the value `decode`
returns is `ILLEGAL` (`0xFFFFFFFF`), `INCOMPLETE` (`0xFFFFFFFE`) or a value on which
`is_valid_codepoint` is true; the two sentinels differ and `is_valid_codepoint` is
false on both. -/
theorem C5_decode_returns_sentinel_or_valid (X : CharSize) (s : List Nat) :
    ((utf_traits.decode X s).1 = illegal ∨ (utf_traits.decode X s).1 = incomplete ∨
      is_valid_codepoint (utf_traits.decode X s).1 = true) ∧
    illegal = 0xFFFFFFFF ∧ incomplete = 0xFFFFFFFE ∧ illegal ≠ incomplete ∧
    is_valid_codepoint illegal = false ∧ is_valid_codepoint incomplete = false := by
  refine ⟨?_, rfl, rfl, by decide, by decide, by decide⟩
  cases X
  · exact utf8_decode_classes s
  · exact utf16_decode_classes s
  · exact utf32_decode_classes s

/-- C6: overlong rejection.  For every value `v` and every length `k` in `{2, 3, 4}`
such that `v` fits the `k`-byte layout and `k` exceeds `width(v)`, the UTF-8 `decode`
applied to the `k`-byte bit packing of `v` (lead bits `110`, `1110`, `11110`,
continuation bytes `10xxxxxx`) followed by any bytes `t` returns `ILLEGAL`, not `v`. -/
theorem C6_utf8_overlong_rejected (v : Nat) (t : List Nat) :
    (v < 2 ^ 11 → utf8.width v < 2 →
      (utf8.decode ([0xC0 ||| (v >>> 6), 0x80 ||| (v &&& 0x3F)] ++ t)).1 = illegal ∧
      (utf8.decode ([0xC0 ||| (v >>> 6), 0x80 ||| (v &&& 0x3F)] ++ t)).1 ≠ v) ∧
    (v < 2 ^ 16 → utf8.width v < 3 →
      (utf8.decode ([0xE0 ||| (v >>> 12), 0x80 ||| ((v >>> 6) &&& 0x3F),
        0x80 ||| (v &&& 0x3F)] ++ t)).1 = illegal ∧
      (utf8.decode ([0xE0 ||| (v >>> 12), 0x80 ||| ((v >>> 6) &&& 0x3F),
        0x80 ||| (v &&& 0x3F)] ++ t)).1 ≠ v) ∧
    (v < 2 ^ 21 → utf8.width v < 4 →
      (utf8.decode ([0xF0 ||| (v >>> 18), 0x80 ||| ((v >>> 12) &&& 0x3F),
        0x80 ||| ((v >>> 6) &&& 0x3F), 0x80 ||| (v &&& 0x3F)] ++ t)).1 = illegal ∧
      (utf8.decode ([0xF0 ||| (v >>> 18), 0x80 ||| ((v >>> 12) &&& 0x3F),
        0x80 ||| ((v >>> 6) &&& 0x3F), 0x80 ||| (v &&& 0x3F)] ++ t)).1 ≠ v) := by
  have hill : illegal = 4294967295 := rfl
  have a0 : 0x80 ||| (v &&& 0x3F) = v % 64 + 128 := by
    rw [Nat.or_comm, and_3F, or_80 _ (by omega)]
  have a1 : 0x80 ||| ((v >>> 6) &&& 0x3F) = v / 64 % 64 + 128 := by
    rw [Nat.or_comm, Nat.shiftRight_eq_div_pow, and_3F, or_80 _ (by omega)]
  have a2 : 0x80 ||| ((v >>> 12) &&& 0x3F) = v / 4096 % 64 + 128 := by
    rw [Nat.or_comm, Nat.shiftRight_eq_div_pow, and_3F, or_80 _ (by omega)]
  refine ⟨fun h hw => ?_, fun h hw => ?_, fun h hw => ?_⟩
  · have hv : v ≤ 0x7F := by
      unfold utf8.width at hw
      split_ifs at hw <;> omega
    have l : 0xC0 ||| (v >>> 6) = v / 64 + 192 := by
      rw [Nat.or_comm, Nat.shiftRight_eq_div_pow, or_C0 _ (by omega)]
    rw [l, a0]
    simp only [List.cons_append, List.nil_append]
    rw [utf8_decode_bad_lead _ _ (by omega) (by omega)]
    exact ⟨rfl, by rw [hill]; omega⟩
  · have hv : v ≤ 0x7FF := by
      unfold utf8.width at hw
      split_ifs at hw <;> omega
    have l : 0xE0 ||| (v >>> 12) = v / 4096 + 224 := by
      rw [Nat.or_comm, Nat.shiftRight_eq_div_pow, or_E0 _ (by omega)]
    rw [l, a1, a0]
    simp only [List.cons_append, List.nil_append]
    rw [utf8_decode_3 _ _ _ _ (by omega) (by omega) (by omega) (by omega) (by omega)
      (by omega), if_neg (by omega)]
    exact ⟨rfl, by rw [hill]; omega⟩
  · have hv : v ≤ 0xFFFF := by
      unfold utf8.width at hw
      split_ifs at hw <;> omega
    have l : 0xF0 ||| (v >>> 18) = v / 262144 + 240 := by
      rw [Nat.or_comm, Nat.shiftRight_eq_div_pow, or_F0 _ (by omega)]
    rw [l, a2, a1, a0]
    simp only [List.cons_append, List.nil_append]
    rw [utf8_decode_4 _ _ _ _ _ (by omega) (by omega) (by omega) (by omega) (by omega)
      (by omega) (by omega) (by omega), if_neg (by omega)]
    exact ⟨rfl, by rw [hill]; omega⟩

/-- C6 at `v = 0x01` packed in two bytes: `decode` of `0xC0, 0x81` returns `ILLEGAL`,
not `0x01`. -/
theorem C6_utf8_overlong_rejected_witness :
    (1 < 2 ^ 11 ∧ utf8.width 1 < 2) ∧
    (utf8.decode [0xC0, 0x81]).1 = illegal ∧ (utf8.decode [0xC0, 0x81]).1 ≠ 0x01 :=
  ⟨by decide, (C6_utf8_overlong_rejected 1 []).1 (by decide) (by decide)⟩

/-- C7: truncation detection.  For every code point `c` up to `0x10FFFF` whose encoding
takes more than one unit (`c >= 0x80` in UTF-8, `c >= 0x10000` in UTF-16), `decode`
applied to each proper initial segment of `encode(c)` (its first `k` units, for every
`k` below the length, `k = 0` included) returns `INCOMPLETE`, with the cursor at the
end of the range. -/
theorem C7_truncation_is_incomplete (c k : Nat) (h1 : c ≤ 0x10FFFF) :
    (0x80 ≤ c → k < (utf8.encode c).length →
      utf8.decode ((utf8.encode c).take k) = (incomplete, [])) ∧
    (0x10000 ≤ c → k < (utf16.encode c).length →
      utf16.decode ((utf16.encode c).take k) = (incomplete, [])) :=
  ⟨fun h hk => utf8_truncated c k h1 h hk, fun h hk => utf16_truncated c k h1 h hk⟩

/-- C7 at `U+1F60E`: the first three of its four UTF-8 bytes, and the first of its two
UTF-16 units. -/
theorem C7_truncation_is_incomplete_witness :
    (0x1F60E ≤ 0x10FFFF ∧ 0x80 ≤ 0x1F60E ∧ 3 < (utf8.encode 0x1F60E).length) ∧
    utf8.decode [0xF0, 0x9F, 0x98] = (incomplete, []) ∧
    (0x10000 ≤ 0x1F60E ∧ 1 < (utf16.encode 0x1F60E).length) ∧
    utf16.decode [0xD83D] = (incomplete, []) :=
  ⟨by decide,
   (C7_truncation_is_incomplete 0x1F60E 3 (by decide)).1 (by decide) (by decide),
   by decide,
   (C7_truncation_is_incomplete 0x1F60E 1 (by decide)).2 (by decide) (by decide)⟩

/-- C8: UTF-8 surrogate and range rejection.  For every byte sequence that starts with
a legal lead byte (`trail_length` is 0, 1, 2 or 3) followed by that many continuation
bytes, all matching `10xxxxxx` (`is_trail`), if the value assembled from the payload
bits (the lead itself when it stands alone, else the low 5, 4 or 3 bits of the lead,
then 6 bits of each continuation byte) lies in `0xD800..0xDFFF` or exceeds `0x10FFFF`,
then `decode` returns `ILLEGAL`, having read the lead and its continuation bytes. -/
theorem C8_utf8_surrogate_and_range_rejected (b0 b1 b2 b3 : Nat) (t : List Nat)
    (h0 : b0 < 256) (h1 : b1 < 256) (h2 : b2 < 256) (h3 : b3 < 256) :
    (utf8.trail_length b0 = 0 → (0xD800 ≤ b0 ∧ b0 ≤ 0xDFFF) ∨ 0x10FFFF < b0 →
      utf8.decode (b0 :: t) = (illegal, t)) ∧
    (utf8.trail_length b0 = 1 → utf8.is_trail b1 = true →
      (0xD800 ≤ b0 % 32 * 64 + b1 % 64 ∧ b0 % 32 * 64 + b1 % 64 ≤ 0xDFFF) ∨
        0x10FFFF < b0 % 32 * 64 + b1 % 64 →
      utf8.decode (b0 :: b1 :: t) = (illegal, t)) ∧
    (utf8.trail_length b0 = 2 → utf8.is_trail b1 = true → utf8.is_trail b2 = true →
      (0xD800 ≤ b0 % 16 * 4096 + b1 % 64 * 64 + b2 % 64 ∧
          b0 % 16 * 4096 + b1 % 64 * 64 + b2 % 64 ≤ 0xDFFF) ∨
        0x10FFFF < b0 % 16 * 4096 + b1 % 64 * 64 + b2 % 64 →
      utf8.decode (b0 :: b1 :: b2 :: t) = (illegal, t)) ∧
    (utf8.trail_length b0 = 3 → utf8.is_trail b1 = true → utf8.is_trail b2 = true →
      utf8.is_trail b3 = true →
      (0xD800 ≤ b0 % 8 * 262144 + b1 % 64 * 4096 + b2 % 64 * 64 + b3 % 64 ∧
          b0 % 8 * 262144 + b1 % 64 * 4096 + b2 % 64 * 64 + b3 % 64 ≤ 0xDFFF) ∨
        0x10FFFF < b0 % 8 * 262144 + b1 % 64 * 4096 + b2 % 64 * 64 + b3 % 64 →
      utf8.decode (b0 :: b1 :: b2 :: b3 :: t) = (illegal, t)) := by
  have hl := utf8_trail_length_inv b0 h0
  refine ⟨fun g0 hv => ?_, fun g0 g1 hv => ?_, fun g0 g1 g2 hv => ?_,
    fun g0 g1 g2 g3 hv => ?_⟩
  · omega
  · have r0 := hl.2.1 g0
    have r1 := (is_trail_iff b1 h1).1 g1
    omega
  · have r0 := hl.2.2.1 g0
    have r1 := (is_trail_iff b1 h1).1 g1
    have r2 := (is_trail_iff b2 h2).1 g2
    rw [utf8_decode_3 b0 b1 b2 t r0.1 r0.2 r1.1 r1.2 r2.1 r2.2, if_neg (by omega)]
  · have r0 := hl.2.2.2 g0
    have r1 := (is_trail_iff b1 h1).1 g1
    have r2 := (is_trail_iff b2 h2).1 g2
    have r3 := (is_trail_iff b3 h3).1 g3
    rw [utf8_decode_4 b0 b1 b2 b3 t r0.1 r0.2 r1.1 r1.2 r2.1 r2.2 r3.1 r3.2,
      if_neg (by omega)]

/-- C8 at the bytes `0xED, 0xA0, 0x80` (the surrogate `0xD800`) and
`0xF4, 0x90, 0x80, 0x80` (the value `0x110000`). -/
theorem C8_utf8_surrogate_and_range_rejected_witness :
    (utf8.trail_length 0xED = 2 ∧ utf8.is_trail 0xA0 = true ∧ utf8.is_trail 0x80 = true ∧
      0xED % 16 * 4096 + 0xA0 % 64 * 64 + 0x80 % 64 = 0xD800) ∧
    utf8.decode [0xED, 0xA0, 0x80] = (illegal, []) ∧
    (utf8.trail_length 0xF4 = 3 ∧ utf8.is_trail 0x90 = true ∧
      0xF4 % 8 * 262144 + 0x90 % 64 * 4096 + 0x80 % 64 * 64 + 0x80 % 64 = 0x110000) ∧
    utf8.decode [0xF4, 0x90, 0x80, 0x80] = (illegal, []) :=
  ⟨by decide,
   (C8_utf8_surrogate_and_range_rejected 0xED 0xA0 0x80 0x80 [] (by decide) (by decide)
     (by decide) (by decide)).2.2.1 (by decide) (by decide) (by decide) (by decide),
   by decide,
   (C8_utf8_surrogate_and_range_rejected 0xF4 0x90 0x80 0x80 [] (by decide) (by decide)
     (by decide) (by decide)).2.2.2 (by decide) (by decide) (by decide) (by decide)
     (by decide)⟩

/-- C9: UTF-16 `decode` is characterised by the first one or two units.  On an empty
range it returns `INCOMPLETE`; a first unit `w1` outside `0xD800..0xDFFF` is returned,
one unit consumed; a low surrogate `w1` gives `ILLEGAL`; a high surrogate `w1` with
nothing after it gives `INCOMPLETE`; with a next unit `w2` outside `0xDC00..0xDFFF` it
gives `ILLEGAL`; otherwise the result is
`(((w1 & 0x3FF) << 10) | (w2 & 0x3FF)) + 0x10000`, two units consumed. -/
theorem C9_utf16_decode_cases (w1 w2 : Nat) (t : List Nat)
    (h1 : w1 < 65536) (h2 : w2 < 65536) :
    utf16.decode [] = (incomplete, []) ∧
    (w1 < 0xD800 ∨ 0xDFFF < w1 → utf16.decode (w1 :: t) = (w1, t)) ∧
    (0xDC00 ≤ w1 ∧ w1 ≤ 0xDFFF → utf16.decode (w1 :: t) = (illegal, t)) ∧
    (0xD800 ≤ w1 ∧ w1 ≤ 0xDBFF → utf16.decode [w1] = (incomplete, [])) ∧
    (0xD800 ≤ w1 ∧ w1 ≤ 0xDBFF → ¬ (0xDC00 ≤ w2 ∧ w2 ≤ 0xDFFF) →
      utf16.decode (w1 :: w2 :: t) = (illegal, t)) ∧
    (0xD800 ≤ w1 ∧ w1 ≤ 0xDBFF → 0xDC00 ≤ w2 ∧ w2 ≤ 0xDFFF →
      utf16.decode (w1 :: w2 :: t) =
        ((((w1 &&& 0x3FF) <<< 10) ||| (w2 &&& 0x3FF)) + 0x10000, t)) := by
  have e1 : w1 % 65536 = w1 := Nat.mod_eq_of_lt h1
  have e2 : w2 % 65536 = w2 := Nat.mod_eq_of_lt h2
  refine ⟨rfl, fun g => utf16_decode_1 w1 t h1 g, fun g => ?_, fun g => ?_, fun g g2 => ?_,
    fun g g2 => ?_⟩
  · have c0 : ¬ (w1 < 0xD800 ∨ 0xDFFF < w1) := by omega
    have c1 : w1 > 0xDBFF := by omega
    simp only [utf16.decode, e1, c0, c1, if_false, if_true]
  · have c0 : ¬ (w1 < 0xD800 ∨ 0xDFFF < w1) := by omega
    have c1 : ¬ (w1 > 0xDBFF) := by omega
    simp only [utf16.decode, e1, c0, c1, if_false]
  · have c0 : ¬ (w1 < 0xD800 ∨ 0xDFFF < w1) := by omega
    have c1 : ¬ (w1 > 0xDBFF) := by omega
    have c2 : w2 < 0xDC00 ∨ 0xDFFF < w2 := by omega
    simp only [utf16.decode, e1, e2, c0, c1, c2, if_false, if_true]
  · rw [utf16_decode_2 w1 w2 t g.1 g.2 g2.1 g2.2, and_3FF, and_3FF,
      shl10_or _ _ (Nat.mod_lt _ (by decide))]
    have : (w1 - 0xD800) * 1024 + (w2 - 0xDC00) + 0x10000 =
        w1 % 1024 * 1024 + w2 % 1024 + 0x10000 := by omega
    rw [this]

/-- C9 at the units `0x20AC`, `0xDE0E`, `0xD83D` alone, `0xD83D, 0x0041` and
`0xD83D, 0xDE0E`. -/
theorem C9_utf16_decode_cases_witness :
    (0xD83D < 65536 ∧ 0xDE0E < 65536 ∧ 0x20AC < 0xD800 ∧ 0xDC00 ≤ 0xDE0E ∧ 0xDE0E ≤ 0xDFFF ∧
      0xD800 ≤ 0xD83D ∧ 0xD83D ≤ 0xDBFF ∧ ¬ (0xDC00 ≤ 0x41 ∧ 0x41 ≤ 0xDFFF)) ∧
    utf16.decode [0x20AC, 7] = (0x20AC, [7]) ∧
    utf16.decode [0xDE0E, 7] = (illegal, [7]) ∧
    utf16.decode [0xD83D] = (incomplete, []) ∧
    utf16.decode [0xD83D, 0x41, 7] = (illegal, [7]) ∧
    utf16.decode [0xD83D, 0xDE0E, 7] = (0x1F60E, [7]) :=
  ⟨by decide,
   (C9_utf16_decode_cases 0x20AC 0 [7] (by decide) (by decide)).2.1 (by decide),
   (C9_utf16_decode_cases 0xDE0E 0 [7] (by decide) (by decide)).2.2.1 (by decide),
   (C9_utf16_decode_cases 0xD83D 0 [7] (by decide) (by decide)).2.2.2.1 (by decide),
   (C9_utf16_decode_cases 0xD83D 0x41 [7] (by decide) (by decide)).2.2.2.2.1 (by decide)
     (by decide),
   (C9_utf16_decode_cases 0xD83D 0xDE0E [7] (by decide) (by decide)).2.2.2.2.2 (by decide)
     (by decide)⟩

/-- C10: the UTF-32 codec.  On an empty range `decode` returns `INCOMPLETE` and the
cursor stays; on a non-empty range it consumes exactly one unit `u` and returns `u` if
`is_valid_codepoint(u)` and `ILLEGAL` otherwise, so every unit in `0xD800..0xDFFF` or
above `0x10FFFF` gives `ILLEGAL`; `encode` is the identity, one unit equal to its
argument for every 32-bit value, valid or not, in both of its overloads. -/
theorem C10_utf32_codec {I M : Type} (O : OutIter I M) (out : I) (m : M)
    (u v : Nat) (t : List Nat) (hu : u < 2 ^ 32) (hv : v < 2 ^ 32) :
    utf32.decode [] = (incomplete, []) ∧
    utf32.decode (u :: t) = (if is_valid_codepoint u then u else illegal, t) ∧
    ((0xD800 ≤ u ∧ u ≤ 0xDFFF) ∨ 0x10FFFF < u → utf32.decode (u :: t) = (illegal, t)) ∧
    utf32.encode v = [v] ∧ (utf32.encode v).size = 1 ∧
    utf32.encode_out O v out m = O.put out m v := by
  have ev : v % 2 ^ 32 = v := Nat.mod_eq_of_lt hv
  refine ⟨rfl, utf32_decode_cons u t hu, fun g => ?_, ?_, rfl, ?_⟩
  · rw [utf32_decode_cons u t hu]
    have : is_valid_codepoint u = false := by
      rw [Bool.eq_false_iff, Ne, valid_iff]; omega
    simp [this]
  · simp only [utf32.encode, ev]
  · simp only [utf32.encode_out, ev]

/-- C10 at the units `0x1F60E` (valid), `0xD800` (a surrogate) and `0x110000` (out of
range), and at `encode` of the sentinel `0xFFFFFFFF`. -/
theorem C10_utf32_codec_witness :
    (0xD800 < 2 ^ 32 ∧ 0x110000 < 2 ^ 32 ∧ 0xFFFFFFFF < 2 ^ 32) ∧
    utf32.decode [0x1F60E, 7] = (0x1F60E, [7]) ∧
    utf32.decode [0xD800, 7] = (illegal, [7]) ∧
    utf32.decode [0x110000, 7] = (illegal, [7]) ∧
    utf32.encode 0xFFFFFFFF = [0xFFFFFFFF] :=
  ⟨by decide,
   (C10_utf32_codec back_inserter () [] 0x1F60E 0 [7] (by decide) (by decide)).2.1,
   (C10_utf32_codec back_inserter () [] 0xD800 0 [7] (by decide) (by decide)).2.2.1
     (by decide),
   (C10_utf32_codec back_inserter () [] 0x110000 0 [7] (by decide) (by decide)).2.2.1
     (by decide),
   (C10_utf32_codec back_inserter () [] 0 0xFFFFFFFF [] (by decide) (by decide)).2.2.2.1⟩

/-- C11: lazy-view equivalence.  For every source form `X`, every target form and every
input unit sequence `s`, well-formed or not, the sequence obtained by iterating the
view `as_utf8` / `as_utf16` / `as_utf32` from `begin()` to `end()` equals the result of
`to_u8string` / `to_u16string` / `to_u32string` on `s`, and it is empty exactly when
`s` is empty. -/
theorem C11_lazy_view_equals_eager (X : CharSize) (s : List Nat) :
    ((as_utf8 X s).to_container = to_u8string X s ∧
      (as_utf16 X s).to_container = to_u16string X s ∧
      (as_utf32 X s).to_container = to_u32string X s) ∧
    (((as_utf8 X s).to_container = [] ↔ s = []) ∧
      ((as_utf16 X s).to_container = [] ↔ s = []) ∧
      ((as_utf32 X s).to_container = [] ↔ s = [])) := by
  have h8 : (as_utf8 X s).to_container = to_u8string X s := to_container_eq (as_utf8 X s)
  have h16 : (as_utf16 X s).to_container = to_u16string X s := to_container_eq (as_utf16 X s)
  have h32 : (as_utf32 X s).to_container = to_u32string X s := to_container_eq (as_utf32 X s)
  refine ⟨⟨h8, h16, h32⟩, ?_, ?_, ?_⟩
  · rw [h8]; exact to_utf_string_eq_nil X .one s
  · rw [h16]; exact to_utf_string_eq_nil X .two s
  · rw [h32]; exact to_utf_string_eq_nil X .four s

/-- C12, the code at a positional output iterator: `convert` never assigns to `out`,
so it returns the iterator it was given; converting the UTF-8 bytes `0x61, 0x62` to
UTF-16 into a zeroed array from position 0 leaves `0x62` at position 0 and nothing at
position 1, and returns position 0. -/
theorem C12_convert_does_not_advance_out :
    (∀ (X Y : CharSize) (s : List Nat) (out : Nat) (m : Nat → Nat),
      (convert X Y positional s out m).1 = out) ∧
    (convert .one .two positional [0x61, 0x62] 0 (fun _ => 0)).1 = 0 ∧
    (convert .one .two positional [0x61, 0x62] 0 (fun _ => 0)).2 0 = 0x62 ∧
    (convert .one .two positional [0x61, 0x62] 0 (fun _ => 0)).2 1 = 0 ∧
    (utf_traits.encode_out positional .two 0x61 0 (fun _ => 0)).1 = 1 :=
  ⟨fun X Y s out m => convert_returns_out X Y positional s.length s out m,
    by decide, by decide, by decide, by decide⟩

/-- C13: `is_valid_codepoint(v)` is true if and only if `v <= 0x10FFFF` and `v` is not
in `0xD800..0xDFFF`, for every `v`. -/
theorem C13_is_valid_codepoint_iff (v : Nat) :
    is_valid_codepoint v = true ↔ v ≤ 0x10FFFF ∧ ¬ (0xD800 ≤ v ∧ v ≤ 0xDFFF) :=
  valid_iff v

/-- C14: UTF-8 `encode` emits the minimal-length standard bit packing.  For every code
point `c` up to `0x10FFFF`, `encode(c)` has `width(c)` bytes: 1 if `c <= 0x7F`, 2 if
`c <= 0x7FF`, 3 if `c <= 0xFFFF`, 4 otherwise; a 1-byte result has top bit `0`; the lead
byte of a 2-, 3- or 4-byte result has top bits `110`, `1110` or `11110`; every
following byte has top bits `10`; and the payload bits, most significant first, make
up `c`. -/
theorem C14_utf8_encode_bit_packing (c : Nat) (h : c ≤ 0x10FFFF) :
    ((utf8.encode c).size : Int) = utf8.width c ∧
    (c ≤ 0x7F → ∃ b0, utf8.encode c = [b0] ∧ b0 >>> 7 = 0 ∧ b0 = c) ∧
    (0x7F < c → c ≤ 0x7FF → ∃ b0 b1, utf8.encode c = [b0, b1] ∧
      b0 >>> 5 = 0b110 ∧ b1 >>> 6 = 0b10 ∧
      ((b0 &&& 0x1F) <<< 6) ||| (b1 &&& 0x3F) = c) ∧
    (0x7FF < c → c ≤ 0xFFFF → ∃ b0 b1 b2, utf8.encode c = [b0, b1, b2] ∧
      b0 >>> 4 = 0b1110 ∧ b1 >>> 6 = 0b10 ∧ b2 >>> 6 = 0b10 ∧
      ((((b0 &&& 0x0F) <<< 6) ||| (b1 &&& 0x3F)) <<< 6) ||| (b2 &&& 0x3F) = c) ∧
    (0xFFFF < c → ∃ b0 b1 b2 b3, utf8.encode c = [b0, b1, b2, b3] ∧
      b0 >>> 3 = 0b11110 ∧ b1 >>> 6 = 0b10 ∧ b2 >>> 6 = 0b10 ∧ b3 >>> 6 = 0b10 ∧
      ((((((b0 &&& 0x07) <<< 6) ||| (b1 &&& 0x3F)) <<< 6) ||| (b2 &&& 0x3F)) <<< 6) |||
        (b3 &&& 0x3F) = c) := by
  have m64 : ∀ x : Nat, x % 64 < 64 := fun x => Nat.mod_lt x (by decide)
  refine ⟨utf8_encode_length c, fun h1 => ?_, fun h1 h2 => ?_, fun h1 h2 => ?_, fun h1 => ?_⟩
  · refine ⟨c, utf8_encode_1 c h1, ?_, rfl⟩
    rw [Nat.shiftRight_eq_div_pow]; omega
  · refine ⟨_, _, utf8_encode_2 c h1 h2, ?_, ?_, ?_⟩
    · rw [Nat.shiftRight_eq_div_pow]; omega
    · rw [Nat.shiftRight_eq_div_pow]; omega
    · rw [and_1F, and_3F, shl6_or _ _ (m64 _)]; omega
  · refine ⟨_, _, _, utf8_encode_3 c h1 h2, ?_, ?_, ?_, ?_⟩
    · rw [Nat.shiftRight_eq_div_pow]; omega
    · rw [Nat.shiftRight_eq_div_pow]; omega
    · rw [Nat.shiftRight_eq_div_pow]; omega
    · rw [and_0F, and_3F, and_3F, shl6_or _ _ (m64 _), shl6_or _ _ (m64 _)]; omega
  · refine ⟨_, _, _, _, utf8_encode_4 c h1 (by omega), ?_, ?_, ?_, ?_, ?_⟩
    · rw [Nat.shiftRight_eq_div_pow]; omega
    · rw [Nat.shiftRight_eq_div_pow]; omega
    · rw [Nat.shiftRight_eq_div_pow]; omega
    · rw [Nat.shiftRight_eq_div_pow]; omega
    · rw [and_07, and_3F, and_3F, and_3F, shl6_or _ _ (m64 _), shl6_or _ _ (m64 _),
        shl6_or _ _ (m64 _)]
      omega

/-- C14 at `U+20AC`: the three bytes `0xE2, 0x82, 0xAC`. -/
theorem C14_utf8_encode_bit_packing_witness :
    (0x20AC ≤ 0x10FFFF ∧ 0x7FF < 0x20AC ∧ 0x20AC ≤ 0xFFFF) ∧
    ((utf8.encode 0x20AC).size : Int) = utf8.width 0x20AC ∧
    utf8.encode 0x20AC = [0xE2, 0x82, 0xAC] ∧
    ∃ b0 b1 b2, utf8.encode 0x20AC = [b0, b1, b2] ∧
      b0 >>> 4 = 0b1110 ∧ b1 >>> 6 = 0b10 ∧ b2 >>> 6 = 0b10 ∧
      ((((b0 &&& 0x0F) <<< 6) ||| (b1 &&& 0x3F)) <<< 6) ||| (b2 &&& 0x3F) = 0x20AC :=
  ⟨by decide, (C14_utf8_encode_bit_packing 0x20AC (by decide)).1, by decide,
    (C14_utf8_encode_bit_packing 0x20AC (by decide)).2.2.2.1 (by decide) (by decide)⟩

/-- C15: converting the one-unit UTF-32 sequence `0x0001F60E` to UTF-8 yields exactly
the 4 bytes `0xF0, 0x9F, 0x98, 0x8E`, and converting it to UTF-16 yields exactly the
two units `0xD83D, 0xDE0E`; the views give the same. -/
theorem C15_convert_U1F60E :
    to_u8string .four [0x0001F60E] = [0xF0, 0x9F, 0x98, 0x8E] ∧
    to_u16string .four [0x0001F60E] = [0xD83D, 0xDE0E] ∧
    (as_utf8 .four [0x0001F60E]).to_container = [0xF0, 0x9F, 0x98, 0x8E] ∧
    (as_utf16 .four [0x0001F60E]).to_container = [0xD83D, 0xDE0E] :=
  ⟨by decide, by decide, by decide, by decide⟩

/-- C16: UTF-8 `decode` advances the cursor past every byte it examines.  When the
lead byte is not a legal lead, `ILLEGAL` is returned with exactly one byte consumed;
when a continuation byte `x` does not match `10xxxxxx`, `ILLEGAL` is returned with the
cursor right after `x`; and after a legal lead and all its continuation bytes, the
cursor is past them whatever the checks on the assembled value return. -/
theorem C16_utf8_decode_cursor (b0 b1 b2 b3 x : Nat) (t : List Nat)
    (h0 : b0 < 256) (h1 : b1 < 256) (h2 : b2 < 256) (h3 : b3 < 256) (hx : x < 256) :
    (utf8.trail_length b0 < 0 → utf8.decode (b0 :: t) = (illegal, t)) ∧
    (utf8.is_trail x = false →
      (utf8.trail_length b0 = 1 → utf8.decode (b0 :: x :: t) = (illegal, t)) ∧
      (utf8.trail_length b0 = 2 → utf8.decode (b0 :: x :: t) = (illegal, t) ∧
        (utf8.is_trail b1 = true → utf8.decode (b0 :: b1 :: x :: t) = (illegal, t))) ∧
      (utf8.trail_length b0 = 3 → utf8.decode (b0 :: x :: t) = (illegal, t) ∧
        (utf8.is_trail b1 = true → utf8.decode (b0 :: b1 :: x :: t) = (illegal, t) ∧
          (utf8.is_trail b2 = true →
            utf8.decode (b0 :: b1 :: b2 :: x :: t) = (illegal, t))))) ∧
    (utf8.trail_length b0 = 1 → utf8.is_trail b1 = true →
      (utf8.decode (b0 :: b1 :: t)).2 = t) ∧
    (utf8.trail_length b0 = 2 → utf8.is_trail b1 = true → utf8.is_trail b2 = true →
      (utf8.decode (b0 :: b1 :: b2 :: t)).2 = t) ∧
    (utf8.trail_length b0 = 3 → utf8.is_trail b1 = true → utf8.is_trail b2 = true →
      utf8.is_trail b3 = true → (utf8.decode (b0 :: b1 :: b2 :: b3 :: t)).2 = t) := by
  have hl := utf8_trail_length_inv b0 h0
  have e0 : b0 % 256 = b0 := Nat.mod_eq_of_lt h0
  refine ⟨fun g => ?_, fun gx => ⟨fun g => ?_, fun g => ⟨?_, fun g1 => ?_⟩,
    fun g => ⟨?_, fun g1 => ⟨?_, fun g2 => ?_⟩⟩⟩, fun g g1 => ?_, fun g g1 g2 => ?_,
    fun g g1 g2 g3 => ?_⟩
  · simp [utf8.decode, e0, g]
  · have r0 := hl.2.1 g
    exact utf8_bad_trail_1 b0 x t r0.1 r0.2 hx ((is_trail_false_iff x hx).1 gx)
  · have r0 := hl.2.2.1 g
    exact (utf8_bad_trail_2 b0 128 x t r0.1 r0.2 (by decide) (by decide) hx
      ((is_trail_false_iff x hx).1 gx)).1
  · have r0 := hl.2.2.1 g
    have r1 := (is_trail_iff b1 h1).1 g1
    exact (utf8_bad_trail_2 b0 b1 x t r0.1 r0.2 r1.1 r1.2 hx
      ((is_trail_false_iff x hx).1 gx)).2
  · have r0 := hl.2.2.2 g
    exact (utf8_bad_trail_3 b0 128 128 x t r0.1 r0.2 (by decide) (by decide) (by decide)
      (by decide) hx ((is_trail_false_iff x hx).1 gx)).1
  · have r0 := hl.2.2.2 g
    have r1 := (is_trail_iff b1 h1).1 g1
    exact (utf8_bad_trail_3 b0 b1 128 x t r0.1 r0.2 r1.1 r1.2 (by decide) (by decide) hx
      ((is_trail_false_iff x hx).1 gx)).2.1
  · have r0 := hl.2.2.2 g
    have r1 := (is_trail_iff b1 h1).1 g1
    have r2 := (is_trail_iff b2 h2).1 g2
    exact (utf8_bad_trail_3 b0 b1 b2 x t r0.1 r0.2 r1.1 r1.2 r2.1 r2.2 hx
      ((is_trail_false_iff x hx).1 gx)).2.2
  · have r0 := hl.2.1 g
    have r1 := (is_trail_iff b1 h1).1 g1
    rw [utf8_decode_2 b0 b1 t r0.1 r0.2 r1.1 r1.2]
  · have r0 := hl.2.2.1 g
    have r1 := (is_trail_iff b1 h1).1 g1
    have r2 := (is_trail_iff b2 h2).1 g2
    rw [utf8_decode_3 b0 b1 b2 t r0.1 r0.2 r1.1 r1.2 r2.1 r2.2]
  · have r0 := hl.2.2.2 g
    have r1 := (is_trail_iff b1 h1).1 g1
    have r2 := (is_trail_iff b2 h2).1 g2
    have r3 := (is_trail_iff b3 h3).1 g3
    rw [utf8_decode_4 b0 b1 b2 b3 t r0.1 r0.2 r1.1 r1.2 r2.1 r2.2 r3.1 r3.2]

/-- C16 at the bytes `0xC3, 0x41` (a malformed continuation byte: the cursor moves by
2), `0x80` (not a lead: by 1) and `0xE0, 0x80, 0x80` (overlong: by 3), each followed by
the byte `0x07`. -/
theorem C16_utf8_decode_cursor_witness :
    (utf8.trail_length 0xC3 = 1 ∧ utf8.is_trail 0x41 = false ∧ utf8.trail_length 0x80 < 0 ∧
      utf8.trail_length 0xE0 = 2 ∧ utf8.is_trail 0x80 = true) ∧
    utf8.decode [0xC3, 0x41, 0x07] = (illegal, [0x07]) ∧
    utf8.decode [0x80, 0x07] = (illegal, [0x07]) ∧
    utf8.decode [0xE0, 0x80, 0x80, 0x07] = (illegal, [0x07]) ∧
    (utf8.decode [0xE0, 0x80, 0x80, 0x07]).2 = [0x07] :=
  ⟨by decide,
   ((C16_utf8_decode_cursor 0xC3 0 0 0 0x41 [0x07] (by decide) (by decide) (by decide)
     (by decide) (by decide)).2.1 (by decide)).1 (by decide),
   (C16_utf8_decode_cursor 0x80 0 0 0 0 [0x07] (by decide) (by decide) (by decide)
     (by decide) (by decide)).1 (by decide),
   by decide,
   (C16_utf8_decode_cursor 0xE0 0x80 0x80 0 0 [0x07] (by decide) (by decide) (by decide)
     (by decide) (by decide)).2.2.2.1 (by decide) (by decide) (by decide)⟩

/-- C17: the view iterator invariant.  Every iterator state reached from `begin()` by
applying `operator++` only to states that do not compare equal to `end()` is either the
end state (the source is exhausted, the index equals the buffer length and the state
compares equal to `end()`), or its buffer holds between 1 and 4 units, no more than
the buffer's capacity, and the index is below the length, so that `operator*` reads
the unit of the buffer at the index. -/
theorem C17_view_iterator_invariant (v : unicode_view) (it : iterator)
    (h : reachable v it) :
    (it.first_ = [] ∧ it.idx_ = it.next_chars_.size ∧ it.eq v.end_ = true) ∨
    (1 ≤ it.next_chars_.size ∧ it.next_chars_.size ≤ 4 ∧
      it.next_chars_.size ≤ encoded_chars.capacity v.outC ∧
      it.idx_ < it.next_chars_.size ∧ it.next_chars_[it.idx_]? = some it.deref) := by
  rcases reachable_inv v it h with h1 | ⟨h1, h2, h3, h4⟩
  · exact Or.inl h1
  · refine Or.inr ⟨h1, h3, h2, h4, ?_⟩
    simp only [encoded_chars.size] at h4
    rw [iterator.deref, List.getD_eq_getElem _ _ h4, List.getElem?_eq_getElem h4]

/-- C17 at the view `as_utf8` of the UTF-32 unit `0x1F60E`, after one application of
`operator++`: the buffer holds the four bytes and the index is 1. -/
theorem C17_view_iterator_invariant_witness :
    reachable (as_utf8 .four [0x1F60E])
      { next_chars_ := [0xF0, 0x9F, 0x98, 0x8E], first_ := [], idx_ := 1 } ∧
    (1 ≤ 4 ∧ 4 ≤ 4 ∧ 4 ≤ 4 ∧ 1 < 4 ∧ [0xF0, 0x9F, 0x98, 0x8E][1]? = some 0x9F) :=
  ⟨reachable.next _ reachable.start (by decide),
   (C17_view_iterator_invariant (as_utf8 .four [0x1F60E]) _
     (reachable.next _ reachable.start (by decide))).resolve_left (by decide)⟩

/-- C18: `decode_valid` agrees with `decode` on valid input.  For each of the three
codecs and every sequence of units of the codec's unit type on which `decode` returns
a value that is neither `ILLEGAL` nor `INCOMPLETE`, `decode_valid` returns the same
code point and leaves the cursor at the same place. -/
theorem C18_decode_valid_agrees (X : CharSize) (s : List Nat) (ht : well_typed X s)
    (hi : (utf_traits.decode X s).1 ≠ illegal)
    (hc : (utf_traits.decode X s).1 ≠ incomplete) :
    (utf_traits.decode_valid X s).1 = (utf_traits.decode X s).1 ∧
      (utf_traits.decode_valid X s).2 = (utf_traits.decode X s).2 := by
  rw [decode_valid_eq_decode X s ht hi hc]
  exact ⟨rfl, rfl⟩

/-- C18 at the UTF-8 bytes of `U+1F60E` followed by `0x41`, and at the UTF-16 units of
`U+1F60E` followed by `0x41`. -/
theorem C18_decode_valid_agrees_witness :
    (well_typed .one [0xF0, 0x9F, 0x98, 0x8E, 0x41] ∧
      utf_traits.decode .one [0xF0, 0x9F, 0x98, 0x8E, 0x41] = (0x1F60E, [0x41])) ∧
    ((utf_traits.decode_valid .one [0xF0, 0x9F, 0x98, 0x8E, 0x41]).1 =
        (utf_traits.decode .one [0xF0, 0x9F, 0x98, 0x8E, 0x41]).1 ∧
      (utf_traits.decode_valid .one [0xF0, 0x9F, 0x98, 0x8E, 0x41]).2 =
        (utf_traits.decode .one [0xF0, 0x9F, 0x98, 0x8E, 0x41]).2) ∧
    ((utf_traits.decode_valid .two [0xD83D, 0xDE0E, 0x41]).1 =
        (utf_traits.decode .two [0xD83D, 0xDE0E, 0x41]).1 ∧
      (utf_traits.decode_valid .two [0xD83D, 0xDE0E, 0x41]).2 =
        (utf_traits.decode .two [0xD83D, 0xDE0E, 0x41]).2) :=
  ⟨by decide,
   C18_decode_valid_agrees .one [0xF0, 0x9F, 0x98, 0x8E, 0x41] (by decide) (by decide)
     (by decide),
   C18_decode_valid_agrees .two [0xD83D, 0xDE0E, 0x41] (by decide) (by decide)
     (by decide)⟩

/-- C19: sentinels are propagated, not filtered.  For every source form `X` and every
input unit sequence `s`, the UTF-32 conversion of `s`, eager or through the view, is
exactly the list of the values returned by the successive calls of `X`'s `decode` over
`s`; so a malformed sequence gives the unit `0xFFFFFFFF` and a truncated one the unit
`0xFFFFFFFE`, as for the bytes `0xC3, 0x41, 0xE2`. -/
theorem C19_utf32_conversion_is_decode_values (X : CharSize) (s : List Nat) :
    to_u32string X s = decode_all X s ∧
    (as_utf32 X s).to_container = decode_all X s ∧
    decode_all .one [0xC3, 0x41, 0xE2] = [illegal, incomplete] ∧
    to_u32string .one [0xC3, 0x41, 0xE2] = [0xFFFFFFFF, 0xFFFFFFFE] := by
  have h := to_utf32_eq_decode_all X s.length s (Nat.le_refl _)
  refine ⟨h, ?_, by decide, by decide⟩
  rw [← h]
  exact to_container_eq (as_utf32 X s)

/-- C20: `encode` never overflows the fixed-capacity buffer.  For every argument `v`,
the sentinels and other invalid values included, the `encoded_chars` that `encode`
returns has `width(v)` units: between 1 and 4 for UTF-8, 1 or 2 for UTF-16, exactly 1
for UTF-32, never more than the capacity `4 / sizeof(CharType)` of the buffer. -/
theorem C20_encode_fits_buffer (v : Nat) :
    (((utf8.encode v).size : Int) = utf8.width v ∧ 1 ≤ (utf8.encode v).size ∧
      (utf8.encode v).size ≤ 4 ∧ (utf8.encode v).size ≤ encoded_chars.capacity .one) ∧
    (((utf16.encode v).size : Int) = utf16.width v ∧
      ((utf16.encode v).size = 1 ∨ (utf16.encode v).size = 2) ∧
      (utf16.encode v).size ≤ encoded_chars.capacity .two) ∧
    (((utf32.encode v).size : Int) = utf32.width v ∧ (utf32.encode v).size = 1 ∧
      (utf32.encode v).size ≤ encoded_chars.capacity .four) ∧
    ((utf8.encode illegal).size = 4 ∧ (utf16.encode illegal).size = 2 ∧
      (utf32.encode illegal).size = 1) := by
  have a8 := utf8_encode_length v
  have b8 := utf8_width_bounds v
  have a16 := utf16_encode_length v
  have b16 := utf16_width_bounds v
  refine ⟨⟨a8, ?_, ?_, ?_⟩, ⟨a16, ?_, ?_⟩, ⟨rfl, rfl, ?_⟩, by decide, by decide, by decide⟩
  · omega
  · omega
  · simp only [encoded_chars.capacity]; omega
  · omega
  · simp only [encoded_chars.capacity]; omega
  · simp only [encoded_chars.capacity]; exact Nat.le_refl _

/-- C21: `decode` always makes progress and never reads past the end.  For each of the
three codecs and every non-empty source range, `decode` reads an initial segment of the
range of at least 1 and at most `max_width` units (4 for UTF-8, 2 for UTF-16, 1 for
UTF-32), whatever it returns.  Hence the loop of `convert` ends on every finite input:
whatever the bound given to the loop, `decode` is called at most as many times as
there are source units, and every bound of at least that number gives the result of
`convert`. -/
theorem C21_decode_progress_and_termination {I M : Type} (X Y : CharSize)
    (O : OutIter I M) (out : I) (m : M) (s : List Nat) :
    (s ≠ [] → ∃ pre, s = pre ++ (utf_traits.decode X s).2 ∧
      1 ≤ pre.length ∧ pre.length ≤ utf_traits.max_width X) ∧
    (utf_traits.max_width .one = 4 ∧ utf_traits.max_width .two = 2 ∧
      utf_traits.max_width .four = 1) ∧
    (∀ fuel, (decode_all_loop X fuel s).length ≤ s.length) ∧
    (∀ fuel, s.length ≤ fuel →
      convert_loop X Y O fuel s out m = convert X Y O s out m) := by
  refine ⟨fun hs => ?_, ⟨rfl, rfl, rfl⟩, fun fuel => decode_all_loop_length X fuel s,
    fun fuel hf => convert_loop_fuel X Y O fuel s.length s out m hf (Nat.le_refl _)⟩
  cases s with
  | nil => exact absurd rfl hs
  | cons u r => exact decode_consumes X u r

/-- C21 at the UTF-8 bytes `0xF0, 0x9F, 0x98, 0x8E, 0x41`: `decode` reads the first
four, and a loop bound of 100 gives the result of `convert`. -/
theorem C21_decode_progress_and_termination_witness :
    ([0xF0, 0x9F, 0x98, 0x8E, 0x41] ≠ [] ∧
      [0xF0, 0x9F, 0x98, 0x8E, 0x41].length ≤ 100) ∧
    (∃ pre, [0xF0, 0x9F, 0x98, 0x8E, 0x41] =
        pre ++ (utf_traits.decode .one [0xF0, 0x9F, 0x98, 0x8E, 0x41]).2 ∧
      1 ≤ pre.length ∧ pre.length ≤ utf_traits.max_width .one) ∧
    (utf_traits.decode .one [0xF0, 0x9F, 0x98, 0x8E, 0x41]).2 = [0x41] ∧
    convert_loop .one .two back_inserter 100 [0xF0, 0x9F, 0x98, 0x8E, 0x41] () [] =
      convert .one .two back_inserter [0xF0, 0x9F, 0x98, 0x8E, 0x41] () [] :=
  ⟨by decide,
   (C21_decode_progress_and_termination .one .two back_inserter () []
     [0xF0, 0x9F, 0x98, 0x8E, 0x41]).1 (by decide),
   by decide,
   (C21_decode_progress_and_termination .one .two back_inserter () []
     [0xF0, 0x9F, 0x98, 0x8E, 0x41]).2.2.2 100 (by decide)⟩

/-- C22: accepted encodings are canonical.  For each of the three codecs and every
sequence `s` of units of the codec's unit type, whenever `decode` returns a value `c`
that is neither `ILLEGAL` nor `INCOMPLETE`, the units it consumed are exactly
`encode(c)`, which has `width(c)` units; so any other sequence `s2` on which `decode`
returns `c` starts with the same units. -/
theorem C22_accepted_encodings_canonical (X : CharSize) (s s2 : List Nat)
    (ht : well_typed X s) (ht2 : well_typed X s2)
    (hi : (utf_traits.decode X s).1 ≠ illegal)
    (hc : (utf_traits.decode X s).1 ≠ incomplete) :
    s = utf_traits.encode X (utf_traits.decode X s).1 ++ (utf_traits.decode X s).2 ∧
    ((utf_traits.encode X (utf_traits.decode X s).1).size : Int) =
      utf_traits.width X (utf_traits.decode X s).1 ∧
    ((utf_traits.decode X s2).1 = (utf_traits.decode X s).1 →
      s2 = utf_traits.encode X (utf_traits.decode X s).1 ++ (utf_traits.decode X s2).2) := by
  have hnil : (utf_traits.decode X []).1 = incomplete := by cases X <;> rfl
  refine ⟨?_, ?_, fun h2 => ?_⟩
  · cases s with
    | nil => exact absurd hnil hc
    | cons u p => exact (decode_canonical X u p ht hi hc).1
  · cases X
    · exact utf8_encode_length _
    · exact utf16_encode_length _
    · exact utf32_encode_length _
  · cases s2 with
    | nil => rw [hnil] at h2; exact absurd h2.symm hc
    | cons u p =>
      have h := (decode_canonical X u p ht2 (by rw [h2]; exact hi) (by rw [h2]; exact hc)).1
      rw [h2] at h
      exact h

/-- C22 at the UTF-8 bytes of `U+20AC` followed by `0x41`, and the same bytes followed
by `0x42, 0x43`. -/
theorem C22_accepted_encodings_canonical_witness :
    (well_typed .one [0xE2, 0x82, 0xAC, 0x41] ∧ well_typed .one [0xE2, 0x82, 0xAC, 0x42, 0x43] ∧
      utf_traits.decode .one [0xE2, 0x82, 0xAC, 0x41] = (0x20AC, [0x41]) ∧
      utf_traits.decode .one [0xE2, 0x82, 0xAC, 0x42, 0x43] = (0x20AC, [0x42, 0x43]) ∧
      utf_traits.encode .one 0x20AC = [0xE2, 0x82, 0xAC]) ∧
    ([0xE2, 0x82, 0xAC, 0x41] =
        utf_traits.encode .one (utf_traits.decode .one [0xE2, 0x82, 0xAC, 0x41]).1 ++
          (utf_traits.decode .one [0xE2, 0x82, 0xAC, 0x41]).2 ∧
      ((utf_traits.encode .one (utf_traits.decode .one [0xE2, 0x82, 0xAC, 0x41]).1).size : Int) =
        utf_traits.width .one (utf_traits.decode .one [0xE2, 0x82, 0xAC, 0x41]).1 ∧
      ((utf_traits.decode .one [0xE2, 0x82, 0xAC, 0x42, 0x43]).1 =
          (utf_traits.decode .one [0xE2, 0x82, 0xAC, 0x41]).1 →
        [0xE2, 0x82, 0xAC, 0x42, 0x43] =
          utf_traits.encode .one (utf_traits.decode .one [0xE2, 0x82, 0xAC, 0x41]).1 ++
            (utf_traits.decode .one [0xE2, 0x82, 0xAC, 0x42, 0x43]).2)) :=
  ⟨by decide,
   C22_accepted_encodings_canonical .one [0xE2, 0x82, 0xAC, 0x41]
     [0xE2, 0x82, 0xAC, 0x42, 0x43] (by decide) (by decide) (by decide) (by decide)⟩

/-- C23: errors stay visible after transcoding.  For every ordered pair of forms
`(X, Y)` and every input unit sequence `s`, if no call of `Y`'s `decode` over the
conversion of `s` from `X` to `Y` returns `ILLEGAL` or `INCOMPLETE`, then no call of
`X`'s `decode` over `s` returns `ILLEGAL` or `INCOMPLETE`. -/
theorem C23_errors_stay_visible (X Y : CharSize) (s : List Nat)
    (h : valid_in Y (to_utf_string X Y s)) : valid_in X s :=
  valid_of_converted_valid X Y s.length s (Nat.le_refl _) h

/-- C23 at the UTF-8 bytes of `U+0024 U+20AC`, converted to UTF-16; next to it, the
malformed bytes `0x61, 0xC3, 0x41`, whose conversion to UTF-16 decodes to `0x61`,
`0xFFBF`, `ILLEGAL`. -/
theorem C23_errors_stay_visible_witness :
    valid_in .two (to_utf_string .one .two [0x24, 0xE2, 0x82, 0xAC]) ∧
    valid_in .one [0x24, 0xE2, 0x82, 0xAC] ∧
    decode_all .two (to_utf_string .one .two [0x61, 0xC3, 0x41]) = [0x61, 0xFFBF, illegal] ∧
    ¬ valid_in .one [0x61, 0xC3, 0x41] :=
  ⟨by decide, C23_errors_stay_visible .one .two [0x24, 0xE2, 0x82, 0xAC] (by decide),
    by decide, by decide⟩

end tcb.unicode
